import Mathlib

/-!
Average and dominant colour of a pixel buffer.

A shallow embedding of `average-color-worker.js`, `dominant-color-worker.js`
and of the worker calculators of `pixel-checker.js`.

* A `Uint8ClampedArray` is a `List Nat` (every entry is a byte, `0..255`);
  reading past the end gives `undefined`, as in JavaScript.
* JavaScript numbers are modelled exactly on the integers the workers handle,
  together with `NaN`, `Infinity` and `undefined`. Sums of bytes and values
  below `2^32` are exact in a double, and for a sum of at most `2^32` bytes the
  rounded quotient `component / count` has the same floor as the exact one.
* The object built by `countColors` is an insertion-ordered association list:
  every key starts with `#`, so no key is an array index and `Object.keys`
  lists the keys in insertion order.
* The `for` loops run on an index with a fuel equal to the length of the data,
  which is more than the number of iterations.
-/

namespace ColorWorkers

/-! ## JavaScript values -/

/-- The values an argument of `rgbToHex` or a channel sum can take. -/
inductive JSVal where
  | num (n : Nat)
  | nan
  | inf
  | undefined
  deriving DecidableEq, Repr

/-- The abstract operation `ToInt32` on an integer. -/
def toInt32 (z : Int) : Int :=
  let m := z % 4294967296
  if 2147483648 ≤ m then m - 4294967296 else m

/-- The operator `v << k`: `NaN`, `Infinity` and `undefined` convert to `0`. -/
def shl (v : JSVal) (k : Nat) : Int :=
  match v with
  | .num n => toInt32 (toInt32 (Int.ofNat n) * 2 ^ (k % 32))
  | _ => 0

/-- The operator `a + b` on the values of a channel sum. -/
def jsAdd (a b : JSVal) : JSVal :=
  match a, b with
  | .num x, .num y => .num (x + y)
  | .undefined, _ => .nan
  | _, .undefined => .nan
  | .nan, _ => .nan
  | _, .nan => .nan
  | .inf, _ => .inf
  | _, .inf => .inf

/-- The call `z.toString(16)` on an integer. -/
def intToString16 (z : Int) : List Char :=
  if z < 0 then '-' :: Nat.toDigits 16 z.natAbs else Nat.toDigits 16 z.toNat

/-- The call `(s + b).toString(16)` where `s` is an integer and `b` any value. -/
def sumToString16 (s : Int) (b : JSVal) : List Char :=
  match b with
  | .num n => intToString16 (s + Int.ofNat n)
  | .inf => "Infinity".data
  | .nan => "NaN".data
  | .undefined => "NaN".data

/-! ## Both workers: `rgbToHex` -/

/-- The function `rgbToHex`:
`"#" + ((1 << 24) + (r << 16) + (g << 8) + b).toString(16).slice(1)`. -/
def rgbToHex (r g b : JSVal) : String :=
  String.mk ('#' :: (sumToString16 (shl (.num 1) 24 + shl r 16 + shl g 8) b).drop 1)

/-! ## `average-color-worker.js` -/

/-- The read `data[i]` of a typed array. -/
def readAt (data : List Nat) (i : Nat) : JSVal :=
  match data[i]? with
  | some x => .num x
  | none => .undefined

/-- The state of the loop of `getAverageRGBColor`: `rgb[0]`, `rgb[1]`, `rgb[2]`
and `count`. -/
structure AvgState where
  r : JSVal
  g : JSVal
  b : JSVal
  count : Nat
  deriving DecidableEq, Repr

/-- The loop `for (let i = 0; i < data.length; i += 4)` of `getAverageRGBColor`. -/
def averageLoop (data : List Nat) : Nat → Nat → AvgState → AvgState
  | 0, _, st => st
  | fuel + 1, i, st =>
    if i < data.length then
      averageLoop data fuel (i + 4)
        { r := jsAdd st.r (readAt data i)
          g := jsAdd st.g (readAt data (i + 1))
          b := jsAdd st.b (readAt data (i + 2))
          count := st.count + 1 }
    else st

/-- The expression `Math.floor(component / count)`. -/
def floorDiv (component : JSVal) (count : Nat) : JSVal :=
  match component with
  | .num n => if count = 0 then (if n = 0 then .nan else .inf) else .num (n / count)
  | .nan => .nan
  | .undefined => .nan
  | .inf => .inf

/-- The function `getAverageRGBColor`; the array of three numbers is a triple. -/
def getAverageRGBColor (data : List Nat) : JSVal × JSVal × JSVal :=
  let st := averageLoop data data.length 0 { r := .num 0, g := .num 0, b := .num 0, count := 0 }
  (floorDiv st.r st.count, floorDiv st.g st.count, floorDiv st.b st.count)

/-- The message listener of the average worker: the string it posts back. -/
def averageWorker (data : List Nat) : String :=
  let averageColor := getAverageRGBColor data
  rgbToHex averageColor.1 averageColor.2.1 averageColor.2.2

/-! ## `dominant-color-worker.js` -/

/-- The loop of `convertColorsToHex`. -/
def convertLoop (data : List Nat) : Nat → Nat → List String → List String
  | 0, _, colors => colors
  | fuel + 1, i, colors =>
    if i < data.length then
      convertLoop data fuel (i + 4)
        (colors ++ [rgbToHex (readAt data i) (readAt data (i + 1)) (readAt data (i + 2))])
    else colors

/-- The function `convertColorsToHex`. -/
def convertColorsToHex (data : List Nat) : List String :=
  convertLoop data data.length 0 []

/-- The read `acc[key]` of an object: `none` is `undefined`. -/
def objGet (acc : List (String × Nat)) (key : String) : Option Nat :=
  match acc with
  | [] => none
  | (k, v) :: rest => if k = key then some v else objGet rest key

/-- The write `acc[key] = v`: an existing key keeps its place, a new key is
added at the end. -/
def objSet (acc : List (String × Nat)) (key : String) (v : Nat) : List (String × Nat) :=
  match acc with
  | [] => [(key, v)]
  | (k, w) :: rest => if k = key then (k, v) :: rest else (k, w) :: objSet rest key v

/-- The expression `x || 0` on the result of a read. -/
def orZero (x : Option Nat) : Nat :=
  match x with
  | some v => if v = 0 then 0 else v
  | none => 0

/-- The function `countColors`. -/
def countColors (colors : List String) : List (String × Nat) :=
  colors.foldl (fun acc cur => objSet acc cur (orZero (objGet acc cur) + 1)) []

/-- The comparison `x > y` of two reads: false when one is `undefined`. -/
def jsGt (x y : Option Nat) : Bool :=
  match x, y with
  | some a, some b => decide (b < a)
  | _, _ => false

/-- The call `Object.keys(counts)`. -/
def objectKeys (counts : List (String × Nat)) : List String :=
  counts.map Prod.fst

/-- The function `getDominantColor`: `reduce` without an initial value throws a
`TypeError` on an empty array (`none`). -/
def getDominantColor (counts : List (String × Nat)) : Option String :=
  match objectKeys counts with
  | [] => none
  | k :: ks =>
    some (ks.foldl (fun a b => if jsGt (objGet counts a) (objGet counts b) then a else b) k)

/-- The message listener of the dominant worker: the string it posts back, or
`none` when it throws before posting. -/
def dominantWorker (data : List Nat) : Option String :=
  let colors := convertColorsToHex data
  let count := countColors colors
  getDominantColor count

/-! ## `pixel-checker.js`: the worker calculators

The main thread and the two workers exchange messages. A worker handles the
messages posted to it one at a time, in the order they were posted, and each
answer it posts is dispatched on the main thread as one `message` event on the
`Worker` object, again in order. A `message` event calls every listener
registered on the object at that time; a listener added with `once: true` is
removed when it is called. -/

/-- A `Worker` object and its worker: the messages posted to the worker and
not handled yet, the answers posted by the worker and not dispatched yet, and
the `once` listeners on the object, each named by the call of `calculate`
whose promise it resolves. -/
structure Port where
  inbox : List (List Nat)
  outbox : List String
  listeners : List Nat
  deriving DecidableEq, Repr

/-- The page: the two workers in the order of the array `workers`, the
promises of the worker calculators resolved so far (call, value), and the
number of calls of `calculate` made so far. -/
structure Page where
  average : Port
  dominant : Port
  averageResolved : List (Nat × String)
  dominantResolved : List (Nat × String)
  calls : Nat
  deriving DecidableEq, Repr

/-- The page after the script has loaded: nothing posted, no listener. -/
def Page.init : Page :=
  { average := { inbox := [], outbox := [], listeners := [] }
    dominant := { inbox := [], outbox := [], listeners := [] }
    averageResolved := []
    dominantResolved := []
    calls := 0 }

/-- A worker calculator, `data => new Promise(resolve => ...)`: it posts the
data to the worker, then adds a `once` listener that resolves the promise. -/
def workerCalculator (port : Port) (call : Nat) (data : List Nat) : Port :=
  { port with inbox := port.inbox ++ [data], listeners := port.listeners ++ [call] }

/-- The function `calculate`: every worker calculator is called on the data. -/
def calculate (page : Page) (data : List Nat) : Page :=
  { page with
    average := workerCalculator page.average page.calls data
    dominant := workerCalculator page.dominant page.calls data
    calls := page.calls + 1 }

/-- The average worker handles its next message and posts its answer. -/
def runAverage (port : Port) : Port :=
  match port.inbox with
  | [] => port
  | data :: rest => { port with inbox := rest, outbox := port.outbox ++ [averageWorker data] }

/-- The dominant worker handles its next message; it posts nothing when
`getDominantColor` throws. -/
def runDominant (port : Port) : Port :=
  match port.inbox with
  | [] => port
  | data :: rest =>
    match dominantWorker data with
    | some hex => { port with inbox := rest, outbox := port.outbox ++ [hex] }
    | none => { port with inbox := rest }

/-- Resolving a promise: a promise already resolved keeps its value. -/
def resolvePromise (resolved : List (Nat × String)) (call : Nat) (value : String) :
    List (Nat × String) :=
  if (resolved.map Prod.fst).contains call then resolved else resolved ++ [(call, value)]

/-- The dispatch of the next `message` event of a worker on the main thread:
every listener is called with the answer and removed. -/
def deliver (port : Port) (resolved : List (Nat × String)) : Port × List (Nat × String) :=
  match port.outbox with
  | [] => (port, resolved)
  | responseData :: rest =>
    ({ port with outbox := rest, listeners := [] },
      port.listeners.foldl (fun acc call => resolvePromise acc call responseData) resolved)

/-- What can happen next on the page. -/
inductive Event where
  | calculate (data : List Nat)
  | runAverage
  | runDominant
  | deliverAverage
  | deliverDominant
  deriving DecidableEq, Repr

/-- One event. -/
def step (page : Page) : Event → Page
  | .calculate data => calculate page data
  | .runAverage => { page with average := runAverage page.average }
  | .runDominant => { page with dominant := runDominant page.dominant }
  | .deliverAverage =>
    let res := deliver page.average page.averageResolved
    { page with average := res.1, averageResolved := res.2 }
  | .deliverDominant =>
    let res := deliver page.dominant page.dominantResolved
    { page with dominant := res.1, dominantResolved := res.2 }

/-- A sequence of events from the initial page. -/
def run (events : List Event) : Page :=
  events.foldl step Page.init

/-- The value of a resolved promise. -/
def promiseValue (resolved : List (Nat × String)) (call : Nat) : Option String :=
  match resolved with
  | [] => none
  | (c, v) :: rest => if c = call then some v else promiseValue rest call

/-- The value of the promise returned by call number `call` of `calculate`
(`Promise.all`): the two colours once both promises are resolved. -/
def calculateResult (page : Page) (call : Nat) : Option (String × String) :=
  match promiseValue page.averageResolved call, promiseValue page.dominantResolved call with
  | some averageColor, some dominantColor => some (averageColor, dominantColor)
  | _, _ => none

/-! ## Notions used to state the properties -/

/-- The pixels of a buffer, alpha left out: `(R, G, B)` of every complete
group of four bytes. -/
def pixels : List Nat → List (Nat × Nat × Nat)
  | r :: g :: b :: _ :: rest => (r, g, b) :: pixels rest
  | _ => []

/-- The hex string of a pixel. -/
def hexOf (p : Nat × Nat × Nat) : String :=
  rgbToHex (.num p.1) (.num p.2.1) (.num p.2.2)

/-- The sum of the red channel over the pixels. -/
def sumR (data : List Nat) : Nat := ((pixels data).map (fun p => p.1)).sum

/-- The sum of the green channel over the pixels. -/
def sumG (data : List Nat) : Nat := ((pixels data).map (fun p => p.2.1)).sum

/-- The sum of the blue channel over the pixels. -/
def sumB (data : List Nat) : Nat := ((pixels data).map (fun p => p.2.2)).sum

/-- The lowercase hexadecimal digit of a number below 16. -/
def hexDigit (d : Nat) : Char :=
  "0123456789abcdef".data.getD d '0'

/-- Two hexadecimal digits, zero-padded, of a number below 256. -/
def hex2 (n : Nat) : List Char :=
  [hexDigit (n / 16), hexDigit (n % 16)]

/-- The string `#rrggbb` of three channels. -/
def hexString (r g b : Nat) : String :=
  String.mk ('#' :: (hex2 r ++ hex2 g ++ hex2 b))

/-- The buffer whose pixels all have the colour `(r, g, b)`, with one alpha
value per pixel. -/
def uniformBuffer (r g b : Nat) : List Nat → List Nat
  | [] => []
  | a :: alphas => r :: g :: b :: a :: uniformBuffer r g b alphas

/-- Every channel of the pixel is a byte. -/
def BytePixel (p : Nat × Nat × Nat) : Prop :=
  p.1 ≤ 255 ∧ p.2.1 ≤ 255 ∧ p.2.2 ≤ 255

/-- What the tally holds once the colours `pre` have been counted: under
every key the number of its occurrences, no key for a colour that has not
occurred, the keys in the order of their first occurrences, and counts that
add up to the number of colours. -/
structure TallyOf (pre : List String) (acc : List (String × Nat)) : Prop where
  get : ∀ k, objGet acc k = if pre.count k = 0 then none else some (pre.count k)
  order : (objectKeys acc).Pairwise (fun a b => pre.indexOf a < pre.indexOf b)
  total : (acc.map Prod.snd).sum = pre.length

/-- The event is a call of `calculate`. -/
def Event.isCalculate : Event → Bool
  | .calculate _ => true
  | _ => false

/-- A worker between two overlapping calls, numbered 0 and 1, and the dispatch
of its answers, where `first` is its answer to the first buffer: either no
promise is resolved, both listeners are on and the answer `first` is the next
to be dispatched (or the worker has not run yet), or both promises are resolved
with `first` and no listener is left. -/
def Overlapping (d1 d2 : List Nat) (first : String) (port : Port)
    (resolved : List (Nat × String)) : Prop :=
  (resolved = [] ∧ port.listeners = [0, 1] ∧
    ((port.inbox = [d1, d2] ∧ port.outbox = []) ∨ ∃ rest, port.outbox = first :: rest)) ∨
  (resolved = [(0, first), (1, first)] ∧ port.listeners = [])

/-- No message is pending and no listener is registered on either worker: no
call of `calculate` is outstanding. -/
def Page.Idle (page : Page) : Prop :=
  page.average = { inbox := [], outbox := [], listeners := [] } ∧
  page.dominant = { inbox := [], outbox := [], listeners := [] }

/-- Every listener and every resolved promise belongs to a call already made. -/
def WellNumbered (page : Page) : Prop :=
  (∀ c ∈ page.average.listeners, c < page.calls) ∧
  (∀ c ∈ page.dominant.listeners, c < page.calls) ∧
  (∀ e ∈ page.averageResolved, e.1 < page.calls) ∧
  (∀ e ∈ page.dominantResolved, e.1 < page.calls)

/-- The stages of one worker that serves the single call `call` on `data`,
with the promises resolved before: at stage 0 the buffer is posted, at stage 1
the worker has posted `answer`, from stage 2 on the answer is dispatched and
the promise of the call is resolved with it. -/
def aloneState (data : List Nat) (answer : String) (call : Nat) (base : List (Nat × String)) :
    Nat → Port × List (Nat × String)
  | 0 => ({ inbox := [data], outbox := [], listeners := [call] }, base)
  | 1 => ({ inbox := [], outbox := [answer], listeners := [call] }, base)
  | _ + 2 => ({ inbox := [], outbox := [], listeners := [] }, base ++ [(call, answer)])

/-- The stage of a worker after an event: the run of the worker moves stage 0
to stage 1, the dispatch of its answer moves stage 1 to stage 2. -/
def stageStep (runEvent deliverEvent : Event) (stage : Nat) (e : Event) : Nat :=
  if stage = 0 ∧ e = runEvent then 1
  else if stage = 1 ∧ e = deliverEvent then 2
  else stage

/-! ## Lemmas on `rgbToHex` -/

theorem toDigitsCore_step (fuel n : Nat) (ds : List Char) :
    Nat.toDigitsCore 16 (fuel + 1) n ds =
      if n / 16 = 0 then Nat.digitChar (n % 16) :: ds
      else Nat.toDigitsCore 16 fuel (n / 16) (Nat.digitChar (n % 16) :: ds) := by
  simp [Nat.toDigitsCore]

theorem digitChar_eq_hexDigit (d : Nat) (h : d < 16) : Nat.digitChar d = hexDigit d := by
  interval_cases d <;> rfl

theorem toDigits16_seven (n : Nat) (h1 : 16777216 ≤ n) (h2 : n < 33554432) :
    Nat.toDigits 16 n =
      ['1', hexDigit (n / 1048576 % 16), hexDigit (n / 65536 % 16), hexDigit (n / 4096 % 16),
        hexDigit (n / 256 % 16), hexDigit (n / 16 % 16), hexDigit (n % 16)] := by
  have hfuel : n + 1 = (n - 6) + 1 + 1 + 1 + 1 + 1 + 1 + 1 := by omega
  unfold Nat.toDigits
  rw [hfuel]
  have e1 : ¬ n / 16 = 0 := by omega
  have e2 : ¬ n / 16 / 16 = 0 := by omega
  have e3 : ¬ n / 16 / 16 / 16 = 0 := by omega
  have e4 : ¬ n / 16 / 16 / 16 / 16 = 0 := by omega
  have e5 : ¬ n / 16 / 16 / 16 / 16 / 16 = 0 := by omega
  have e6 : ¬ n / 16 / 16 / 16 / 16 / 16 / 16 = 0 := by omega
  have e7 : n / 16 / 16 / 16 / 16 / 16 / 16 / 16 = 0 := by omega
  have d7 : n / 16 / 16 / 16 / 16 / 16 / 16 % 16 = 1 := by omega
  rw [toDigitsCore_step, if_neg e1, toDigitsCore_step, if_neg e2, toDigitsCore_step, if_neg e3,
    toDigitsCore_step, if_neg e4, toDigitsCore_step, if_neg e5, toDigitsCore_step, if_neg e6,
    toDigitsCore_step, if_pos e7, d7]
  have q2 : n / 16 / 16 = n / 256 := by omega
  have q3 : n / 16 / 16 / 16 = n / 4096 := by omega
  have q4 : n / 16 / 16 / 16 / 16 = n / 65536 := by omega
  have q5 : n / 16 / 16 / 16 / 16 / 16 = n / 1048576 := by omega
  rw [q5, q4, q3, q2]
  rw [digitChar_eq_hexDigit _ (Nat.mod_lt _ (by decide)),
    digitChar_eq_hexDigit _ (Nat.mod_lt _ (by decide)),
    digitChar_eq_hexDigit _ (Nat.mod_lt _ (by decide)),
    digitChar_eq_hexDigit _ (Nat.mod_lt _ (by decide)),
    digitChar_eq_hexDigit _ (Nat.mod_lt _ (by decide)),
    digitChar_eq_hexDigit _ (Nat.mod_lt _ (by decide))]
  rfl

theorem shl_byte16 (n : Nat) (hn : n ≤ 255) : shl (.num n) 16 = (n : Int) * 65536 := by
  simp only [shl, toInt32, Int.ofNat_eq_coe]
  have e : (2 : Int) ^ (16 % 32) = 65536 := by norm_num
  rw [e]
  split_ifs <;> omega

theorem shl_byte8 (n : Nat) (hn : n ≤ 255) : shl (.num n) 8 = (n : Int) * 256 := by
  simp only [shl, toInt32, Int.ofNat_eq_coe]
  have e : (2 : Int) ^ (8 % 32) = 256 := by norm_num
  rw [e]
  split_ifs <;> omega

/-- On bytes, `rgbToHex` is `#`, then two hexadecimal digits per channel. -/
theorem rgbToHex_bytes (r g b : Nat) (hr : r ≤ 255) (hg : g ≤ 255) (hb : b ≤ 255) :
    rgbToHex (.num r) (.num g) (.num b) = hexString r g b := by
  have h24 : shl (.num 1) 24 = 16777216 := by decide
  have h16 := shl_byte16 r hr
  have h8 := shl_byte8 g hg
  simp only [rgbToHex, sumToString16, h24, h16, h8, hexString, hex2, Int.ofNat_eq_coe]
  have hsum : (16777216 : Int) + (r : Int) * 65536 + (g : Int) * 256 + (b : Int)
      = ((16777216 + r * 65536 + g * 256 + b : Nat) : Int) := by
    push_cast
    ring
  rw [hsum]
  have hnn : ¬ (((16777216 + r * 65536 + g * 256 + b : Nat) : Int) < 0) := by omega
  simp only [intToString16, if_neg hnn, Int.toNat_ofNat]
  rw [toDigits16_seven _ (by omega) (by omega)]
  have a1 : (16777216 + r * 65536 + g * 256 + b) / 1048576 % 16 = r / 16 := by omega
  have a2 : (16777216 + r * 65536 + g * 256 + b) / 65536 % 16 = r % 16 := by omega
  have a3 : (16777216 + r * 65536 + g * 256 + b) / 4096 % 16 = g / 16 := by omega
  have a4 : (16777216 + r * 65536 + g * 256 + b) / 256 % 16 = g % 16 := by omega
  have a5 : (16777216 + r * 65536 + g * 256 + b) / 16 % 16 = b / 16 := by omega
  have a6 : (16777216 + r * 65536 + g * 256 + b) % 16 = b % 16 := by omega
  rw [a1, a2, a3, a4, a5, a6]
  rfl

theorem hexDigit_injective (a b : Nat) (ha : a < 16) (hb : b < 16)
    (h : hexDigit a = hexDigit b) : a = b := by
  have key : ∀ d, d < 16 →
      (if (hexDigit d).toNat ≤ 57 then (hexDigit d).toNat - 48 else (hexDigit d).toNat - 87) = d := by
    intro d hd
    interval_cases d <;> rfl
  have h1 := key a ha
  have h2 := key b hb
  rw [h] at h1
  omega

theorem hex2_injective (a b : Nat) (ha : a ≤ 255) (hb : b ≤ 255) (h : hex2 a = hex2 b) :
    a = b := by
  simp only [hex2, List.cons.injEq, and_true] at h
  have h1 := hexDigit_injective _ _ (by omega) (by omega) h.1
  have h2 := hexDigit_injective _ _ (by omega) (by omega) h.2
  omega

theorem hexString_injective (r g b r' g' b' : Nat) (hr : r ≤ 255) (hg : g ≤ 255) (hb : b ≤ 255)
    (hr' : r' ≤ 255) (hg' : g' ≤ 255) (hb' : b' ≤ 255)
    (h : hexString r g b = hexString r' g' b') : r = r' ∧ g = g' ∧ b = b' := by
  have h' := congrArg String.data h
  simp only [hexString, hex2, List.cons.injEq, List.cons_append, List.nil_append,
    true_and, and_true] at h'
  obtain ⟨h1, h2, h3, h4, h5, h6⟩ := h'
  refine ⟨hex2_injective r r' hr hr' ?_, hex2_injective g g' hg hg' ?_,
    hex2_injective b b' hb hb' ?_⟩ <;> simp [hex2, *]

theorem hexString_length (r g b : Nat) : (hexString r g b).length = 7 := by
  rfl

/-! ## Lemmas on the loops -/

theorem readAt_append_right (pre rest : List Nat) (i : Nat) :
    readAt (pre ++ rest) (pre.length + i) = readAt rest i := by
  simp [readAt, List.getElem?_append_right]

theorem convertLoop_shift (pre rest : List Nat) (fuel : Nat) :
    ∀ (i : Nat) (colors : List String),
      convertLoop (pre ++ rest) fuel (pre.length + i) colors = convertLoop rest fuel i colors := by
  induction fuel with
  | zero => intro i colors; rfl
  | succ fuel ih =>
    intro i colors
    simp only [convertLoop, List.length_append, Nat.add_lt_add_iff_left]
    rw [Nat.add_assoc, Nat.add_assoc, Nat.add_assoc, ih, readAt_append_right,
      readAt_append_right, readAt_append_right]

theorem averageLoop_shift (pre rest : List Nat) (fuel : Nat) :
    ∀ (i : Nat) (st : AvgState),
      averageLoop (pre ++ rest) fuel (pre.length + i) st = averageLoop rest fuel i st := by
  induction fuel with
  | zero => intro i st; rfl
  | succ fuel ih =>
    intro i st
    simp only [averageLoop, List.length_append, Nat.add_lt_add_iff_left]
    rw [Nat.add_assoc, Nat.add_assoc, Nat.add_assoc, ih, readAt_append_right,
      readAt_append_right, readAt_append_right]

theorem convertLoop_nil (fuel i : Nat) (colors : List String) :
    convertLoop [] fuel i colors = colors := by
  cases fuel <;> simp [convertLoop]

theorem averageLoop_nil (fuel i : Nat) (st : AvgState) : averageLoop [] fuel i st = st := by
  cases fuel <;> simp [averageLoop]

/-- One more unit of fuel than the loop needs changes nothing. -/
theorem convertLoop_fuel_succ (data : List Nat) (fuel : Nat) :
    ∀ (i : Nat) (colors : List String), data.length ≤ i + 4 * fuel →
      convertLoop data (fuel + 1) i colors = convertLoop data fuel i colors := by
  induction fuel with
  | zero =>
    intro i colors h
    have : ¬ i < data.length := by omega
    simp [convertLoop, this]
  | succ fuel ih =>
    intro i colors h
    have e1 : convertLoop data (fuel + 1 + 1) i colors =
        if i < data.length then
          convertLoop data (fuel + 1) (i + 4)
            (colors ++ [rgbToHex (readAt data i) (readAt data (i + 1)) (readAt data (i + 2))])
        else colors := rfl
    have e2 : convertLoop data (fuel + 1) i colors =
        if i < data.length then
          convertLoop data fuel (i + 4)
            (colors ++ [rgbToHex (readAt data i) (readAt data (i + 1)) (readAt data (i + 2))])
        else colors := rfl
    rw [e1, e2, ih (i + 4) _ (by omega)]

/-- The fuel of `convertColorsToHex` is enough: more fuel gives the same list. -/
theorem convertLoop_fuel_enough (data : List Nat) (extra : Nat) :
    convertLoop data (data.length + extra) 0 [] = convertColorsToHex data := by
  induction extra with
  | zero => rfl
  | succ extra ih =>
    rw [← ih, ← Nat.add_assoc]
    exact convertLoop_fuel_succ data _ 0 [] (by omega)

/-- One more unit of fuel than the loop needs changes nothing. -/
theorem averageLoop_fuel_succ (data : List Nat) (fuel : Nat) :
    ∀ (i : Nat) (st : AvgState), data.length ≤ i + 4 * fuel →
      averageLoop data (fuel + 1) i st = averageLoop data fuel i st := by
  induction fuel with
  | zero =>
    intro i st h
    have : ¬ i < data.length := by omega
    simp [averageLoop, this]
  | succ fuel ih =>
    intro i st h
    have e1 : averageLoop data (fuel + 1 + 1) i st =
        if i < data.length then
          averageLoop data (fuel + 1) (i + 4)
            { r := jsAdd st.r (readAt data i)
              g := jsAdd st.g (readAt data (i + 1))
              b := jsAdd st.b (readAt data (i + 2))
              count := st.count + 1 }
        else st := rfl
    have e2 : averageLoop data (fuel + 1) i st =
        if i < data.length then
          averageLoop data fuel (i + 4)
            { r := jsAdd st.r (readAt data i)
              g := jsAdd st.g (readAt data (i + 1))
              b := jsAdd st.b (readAt data (i + 2))
              count := st.count + 1 }
        else st := rfl
    rw [e1, e2, ih (i + 4) _ (by omega)]

/-- The fuel of `getAverageRGBColor` is enough: more fuel gives the same state. -/
theorem averageLoop_fuel_enough (data : List Nat) (extra : Nat) (st : AvgState) :
    averageLoop data (data.length + extra) 0 st = averageLoop data data.length 0 st := by
  induction extra with
  | zero => rfl
  | succ extra ih =>
    rw [← ih, ← Nat.add_assoc]
    exact averageLoop_fuel_succ data _ 0 st (by omega)

/-- On a buffer of `n` groups of four bytes, the loop of `convertColorsToHex`
adds the hex string of every pixel, in order. -/
theorem convertLoop_pixels (n : Nat) :
    ∀ (data : List Nat) (fuel : Nat) (colors : List String), data.length = 4 * n → n ≤ fuel →
      convertLoop data fuel 0 colors = colors ++ (pixels data).map hexOf := by
  induction n with
  | zero =>
    intro data fuel colors hlen _
    have : data = [] := List.length_eq_zero.mp (by omega)
    subst this
    simp [convertLoop_nil, pixels]
  | succ n ih =>
    intro data fuel colors hlen hfuel
    match data, hlen with
    | r :: g :: b :: a :: rest, hlen =>
      obtain ⟨f, rfl⟩ : ∃ f, fuel = f + 1 := ⟨fuel - 1, by omega⟩
      have hrest : rest.length = 4 * n := by simp at hlen; omega
      have hstep : convertLoop (r :: g :: b :: a :: rest) (f + 1) 0 colors =
          convertLoop ([r, g, b, a] ++ rest) f ([r, g, b, a].length + 0)
            (colors ++ [hexOf (r, g, b)]) := by
        simp [convertLoop, readAt, hexOf]
      rw [hstep, convertLoop_shift, ih rest f _ hrest (by omega)]
      simp [pixels]

/-- The sum of two numbers in a channel sum. -/
theorem jsAdd_num (x y : Nat) : jsAdd (.num x) (.num y) = .num (x + y) := rfl

/-- On a buffer of `n` groups of four bytes, the loop of `getAverageRGBColor`
adds every channel of every pixel to its sum and counts the pixels. -/
theorem averageLoop_pixels (n : Nat) :
    ∀ (data : List Nat) (fuel : Nat) (x y z c : Nat), data.length = 4 * n → n ≤ fuel →
      averageLoop data fuel 0 { r := .num x, g := .num y, b := .num z, count := c } =
        { r := .num (x + sumR data), g := .num (y + sumG data), b := .num (z + sumB data),
          count := c + n } := by
  induction n with
  | zero =>
    intro data fuel x y z c hlen _
    have : data = [] := List.length_eq_zero.mp (by omega)
    subst this
    simp [averageLoop_nil, pixels, sumR, sumG, sumB]
  | succ n ih =>
    intro data fuel x y z c hlen hfuel
    match data, hlen with
    | r :: g :: b :: a :: rest, hlen =>
      obtain ⟨f, rfl⟩ : ∃ f, fuel = f + 1 := ⟨fuel - 1, by omega⟩
      have hrest : rest.length = 4 * n := by simp at hlen; omega
      have hstep : averageLoop (r :: g :: b :: a :: rest) (f + 1) 0
            { r := .num x, g := .num y, b := .num z, count := c } =
          averageLoop ([r, g, b, a] ++ rest) f ([r, g, b, a].length + 0)
            { r := .num (x + r), g := .num (y + g), b := .num (z + b), count := c + 1 } := by
        simp [averageLoop, readAt, jsAdd]
      rw [hstep, averageLoop_shift, ih rest f _ _ _ _ hrest (by omega)]
      simp [pixels, sumR, sumG, sumB, Nat.add_assoc, Nat.add_comm 1 n]

theorem pixels_length (n : Nat) :
    ∀ (data : List Nat), data.length = 4 * n → (pixels data).length = n := by
  induction n with
  | zero =>
    intro data hlen
    have : data = [] := List.length_eq_zero.mp (by omega)
    subst this
    rfl
  | succ n ih =>
    intro data hlen
    match data, hlen with
    | r :: g :: b :: a :: rest, hlen =>
      have hrest : rest.length = 4 * n := by simp at hlen; omega
      simp [pixels, ih rest hrest]

theorem convertColorsToHex_eq (data : List Nat) (h4 : data.length % 4 = 0) :
    convertColorsToHex data = (pixels data).map hexOf := by
  have hlen : data.length = 4 * (data.length / 4) := by omega
  simpa [convertColorsToHex] using convertLoop_pixels _ data data.length [] hlen (by omega)

theorem pixels_length_eq (data : List Nat) (h4 : data.length % 4 = 0) :
    (pixels data).length = data.length / 4 :=
  pixels_length _ data (by omega)

theorem getAverageRGBColor_eq (data : List Nat) (hne : data ≠ []) (h4 : data.length % 4 = 0) :
    getAverageRGBColor data =
      (.num (sumR data / (data.length / 4)), .num (sumG data / (data.length / 4)),
        .num (sumB data / (data.length / 4))) := by
  have hlen : data.length = 4 * (data.length / 4) := by omega
  have hpos : 0 < data.length := List.length_pos.mpr hne
  have hn : data.length / 4 ≠ 0 := by omega
  have h := averageLoop_pixels _ data data.length 0 0 0 0 hlen (by omega)
  simp only [getAverageRGBColor, h, Nat.zero_add, floorDiv, if_neg hn]

theorem average_floor_aux (data : List Nat) (hne : data ≠ []) (h4 : data.length % 4 = 0) :
    getAverageRGBColor data =
      (.num (sumR data / (pixels data).length), .num (sumG data / (pixels data).length),
        .num (sumB data / (pixels data).length)) := by
  rw [pixels_length_eq data h4]
  exact getAverageRGBColor_eq data hne h4

/-! ## Lemmas on the tally -/

theorem objGet_objSet (acc : List (String × Nat)) (key : String) (v : Nat) (k : String) :
    objGet (objSet acc key v) k = if key = k then some v else objGet acc k := by
  induction acc with
  | nil => simp [objSet, objGet]
  | cons e rest ih =>
    obtain ⟨k0, w⟩ := e
    by_cases h0 : k0 = key
    · subst h0
      by_cases h1 : k0 = k <;> simp [objSet, objGet, h1]
    · by_cases h1 : k0 = k
      · subst h1
        have h2 : ¬ key = k0 := fun h => h0 h.symm
        simp [objSet, objGet, h0, h2]
      · simp [objSet, objGet, h0, h1, ih]

theorem objectKeys_objSet (acc : List (String × Nat)) (key : String) (v : Nat) :
    objectKeys (objSet acc key v) =
      if key ∈ objectKeys acc then objectKeys acc else objectKeys acc ++ [key] := by
  induction acc with
  | nil => simp [objSet, objectKeys]
  | cons e rest ih =>
    obtain ⟨k0, w⟩ := e
    by_cases h0 : k0 = key
    · subst h0
      simp [objSet, objectKeys]
    · have h2 : ¬ key = k0 := fun h => h0 h.symm
      simp only [objectKeys] at ih
      by_cases h3 : key ∈ List.map Prod.fst rest
      · simp [objSet, objectKeys, h0, h2, h3, ih]
      · simp [objSet, objectKeys, h0, h2, h3, ih]

theorem objGet_eq_none_iff (acc : List (String × Nat)) (k : String) :
    objGet acc k = none ↔ k ∉ objectKeys acc := by
  induction acc with
  | nil => simp [objGet, objectKeys]
  | cons e rest ih =>
    obtain ⟨k0, w⟩ := e
    simp only [objectKeys] at ih
    by_cases h0 : k0 = k
    · simp [objGet, objectKeys, h0]
    · have h2 : ¬ k = k0 := fun h => h0 h.symm
      simp [objGet, objectKeys, h0, h2, ih]

theorem values_sum_objSet (acc : List (String × Nat)) (key : String) (v : Nat) :
    ((objSet acc key v).map Prod.snd).sum + orZero (objGet acc key) =
      (acc.map Prod.snd).sum + v := by
  induction acc with
  | nil => simp [objSet, objGet, orZero]
  | cons e rest ih =>
    obtain ⟨k0, w⟩ := e
    by_cases h0 : k0 = key
    · have hz : orZero (some w) = w := by
        by_cases hw : w = 0 <;> simp [orZero, hw]
      simp only [objSet, objGet, h0, if_true, List.map_cons, List.sum_cons, hz]
      omega
    · simp only [objSet, objGet, h0, if_false, List.map_cons, List.sum_cons]
      omega

theorem TallyOf.mem_keys {pre : List String} {acc : List (String × Nat)} (h : TallyOf pre acc)
    (k : String) : k ∈ objectKeys acc ↔ k ∈ pre := by
  have h1 := objGet_eq_none_iff acc k
  rw [h.get k] at h1
  by_cases hc : pre.count k = 0
  · have : k ∉ pre := List.count_eq_zero.mp hc
    simp only [hc, if_true, true_iff] at h1
    simp [h1, this]
  · have : k ∈ pre := by
      by_contra hn
      exact hc (List.count_eq_zero.mpr hn)
    simp only [hc, if_false] at h1
    have h2 : k ∈ objectKeys acc := by
      by_contra hn
      exact absurd (h1.mpr hn) (by simp)
    simp [h2, this]

theorem TallyOf.nil : TallyOf [] [] :=
  { get := by intro k; simp [objGet]
    order := by simp [objectKeys]
    total := by simp }

theorem TallyOf.step {pre : List String} {acc : List (String × Nat)} (h : TallyOf pre acc)
    (cur : String) : TallyOf (pre ++ [cur]) (objSet acc cur (orZero (objGet acc cur) + 1)) := by
  have hcur : orZero (objGet acc cur) = pre.count cur := by
    rw [h.get cur]
    by_cases hc : pre.count cur = 0
    · simp [hc, orZero]
    · simp [hc, orZero]
  refine ⟨?_, ?_, ?_⟩
  · intro k
    rw [objGet_objSet, hcur, h.get k]
    by_cases hk : cur = k
    · subst hk
      simp
    · have hk' : ¬ (k = cur) := fun e => hk e.symm
      simp [hk, List.count_append, List.count_cons, hk']
  · rw [objectKeys_objSet]
    have hold : (objectKeys acc).Pairwise
        (fun a b => (pre ++ [cur]).indexOf a < (pre ++ [cur]).indexOf b) := by
      refine List.Pairwise.imp_of_mem ?_ h.order
      intro a b ha hb hab
      rw [List.indexOf_append_of_mem ((h.mem_keys a).mp ha),
        List.indexOf_append_of_mem ((h.mem_keys b).mp hb)]
      exact hab
    by_cases hm : cur ∈ objectKeys acc
    · simpa [hm] using hold
    · simp only [hm, if_false]
      rw [List.pairwise_append]
      refine ⟨hold, by simp, ?_⟩
      intro a ha b hb
      have hb' : b = cur := by simpa using hb
      subst hb'
      have hnot : b ∉ pre := fun hp => hm ((h.mem_keys b).mpr hp)
      rw [List.indexOf_append_of_mem ((h.mem_keys a).mp ha),
        List.indexOf_append_of_not_mem hnot]
      have := List.indexOf_lt_length.mpr ((h.mem_keys a).mp ha)
      simp
      omega
  · have hs := values_sum_objSet acc cur (orZero (objGet acc cur) + 1)
    have ht := h.total
    simp only [List.length_append, List.length_singleton]
    omega

theorem TallyOf.foldl (cs : List String) :
    ∀ (pre : List String) (acc : List (String × Nat)), TallyOf pre acc →
      TallyOf (pre ++ cs)
        (cs.foldl (fun acc cur => objSet acc cur (orZero (objGet acc cur) + 1)) acc) := by
  induction cs with
  | nil => intro pre acc h; simpa using h
  | cons c cs ih =>
    intro pre acc h
    have := ih (pre ++ [c]) _ (h.step c)
    simpa using this

/-- The tally `countColors` builds is the tally of its argument. -/
theorem countColors_tally (colors : List String) : TallyOf colors (countColors colors) := by
  have := TallyOf.foldl colors [] [] TallyOf.nil
  simpa [countColors] using this

/-! ## Lemmas on the selection -/

/-- The `reduce` of `getDominantColor` keeps, of the keys seen so far, the last
one that has the greatest count: the keys before it have at most its count,
the keys after it have less. -/
theorem reduce_last_max (counts : List (String × Nat)) (g : String → Nat) (ks : List String) :
    ∀ (a : String) (pre post : List String),
      (∀ x ∈ pre, g x ≤ g a) → (∀ x ∈ post, g x < g a) →
      (∀ x ∈ a :: ks, objGet counts x = some (g x)) →
      ∃ l1 l2,
        pre ++ a :: (post ++ ks) =
          l1 ++ ks.foldl (fun a b => if jsGt (objGet counts a) (objGet counts b) then a else b) a
            :: l2 ∧
        (∀ x ∈ l1,
          g x ≤ g (ks.foldl (fun a b => if jsGt (objGet counts a) (objGet counts b) then a else b)
            a)) ∧
        (∀ x ∈ l2,
          g x < g (ks.foldl (fun a b => if jsGt (objGet counts a) (objGet counts b) then a else b)
            a)) := by
  induction ks with
  | nil =>
    intro a pre post hpre hpost _
    exact ⟨pre, post, by simp, hpre, hpost⟩
  | cons b ks ih =>
    intro a pre post hpre hpost hget
    have ha : objGet counts a = some (g a) := hget a (by simp)
    have hb : objGet counts b = some (g b) := hget b (by simp)
    have hks : ∀ x ∈ ks, objGet counts x = some (g x) := fun x hx => hget x (by simp [hx])
    simp only [List.foldl_cons, ha, hb, jsGt]
    by_cases hlt : g b < g a
    · simp only [hlt, decide_True, if_true]
      have := ih a pre (post ++ [b]) hpre
        (by
          intro x hx
          rcases List.mem_append.mp hx with h | h
          · exact hpost x h
          · have : x = b := by simpa using h
            subst this
            exact hlt)
        (by
          intro x hx
          rcases List.mem_cons.mp hx with h | h
          · subst h; exact ha
          · exact hks x h)
      simpa [List.append_assoc] using this
    · have hle : g a ≤ g b := Nat.le_of_not_lt hlt
      simp only [hlt, decide_False, Bool.false_eq_true, if_false]
      have := ih b (pre ++ a :: post) []
        (by
          intro x hx
          rcases List.mem_append.mp hx with h | h
          · exact Nat.le_trans (hpre x h) hle
          · rcases List.mem_cons.mp h with h | h
            · subst h; exact hle
            · exact Nat.le_trans (Nat.le_of_lt (hpost x h)) hle)
        (by simp)
        (by
          intro x hx
          rcases List.mem_cons.mp hx with h | h
          · subst h; exact hb
          · exact hks x h)
      simpa [List.append_assoc] using this

/-- On the tally of a non-empty list of colours, `getDominantColor` returns a
key; the keys before it have at most its count, the keys after it have less. -/
theorem getDominantColor_tally (colors : List String) (counts : List (String × Nat))
    (h : TallyOf colors counts) (hne : colors ≠ []) :
    ∃ res l1 l2, getDominantColor counts = some res ∧ objectKeys counts = l1 ++ res :: l2 ∧
      (∀ x ∈ l1, colors.count x ≤ colors.count res) ∧
      (∀ x ∈ l2, colors.count x < colors.count res) := by
  have hget : ∀ x ∈ objectKeys counts, objGet counts x = some (colors.count x) := by
    intro x hx
    have hmem : x ∈ colors := (h.mem_keys x).mp hx
    have hc : colors.count x ≠ 0 := fun e => List.count_eq_zero.mp e hmem
    rw [h.get x, if_neg hc]
  cases hk : objectKeys counts with
  | nil =>
    obtain ⟨c, cs, rfl⟩ := List.exists_cons_of_ne_nil hne
    have : c ∈ objectKeys counts := (h.mem_keys c).mpr (by simp)
    rw [hk] at this
    simp at this
  | cons k ks =>
    rw [hk] at hget
    obtain ⟨l1, l2, h1, h2, h3⟩ :=
      reduce_last_max counts (fun x => colors.count x) ks k [] [] (by simp) (by simp) hget
    refine ⟨_, l1, l2, ?_, ?_, h2, h3⟩
    · simp only [getDominantColor, hk]
    · simpa using h1

/-- The answer of `getDominantColor` on the tally of `colors`: it occurs in
`colors`, no colour occurs more often, and a colour that occurs as often has
its first occurrence before the first occurrence of the answer. -/
theorem getDominantColor_countColors (colors : List String) (hne : colors ≠ []) :
    ∃ res, getDominantColor (countColors colors) = some res ∧ res ∈ colors ∧
      (∀ c ∈ colors, colors.count c ≤ colors.count res) ∧
      (∀ c ∈ colors, c ≠ res → colors.count c = colors.count res →
        colors.indexOf c < colors.indexOf res) := by
  have ht := countColors_tally colors
  obtain ⟨res, l1, l2, hres, hkeys, h1, h2⟩ := getDominantColor_tally colors _ ht hne
  have hmem : ∀ c, c ∈ colors ↔ c ∈ l1 ∨ c = res ∨ c ∈ l2 := by
    intro c
    rw [← ht.mem_keys c, hkeys]
    simp
  refine ⟨res, hres, (hmem res).mpr (Or.inr (Or.inl rfl)), ?_, ?_⟩
  · intro c hc
    rcases (hmem c).mp hc with h | h | h
    · exact h1 c h
    · rw [h]
    · exact Nat.le_of_lt (h2 c h)
  · intro c hc hcne heq
    have hord := ht.order
    rw [hkeys, List.pairwise_append] at hord
    rcases (hmem c).mp hc with h | h | h
    · exact hord.2.2 c h res (by simp)
    · exact absurd h hcne
    · have := h2 c h
      omega

/-! ## From hex strings back to pixels -/

theorem pixels_mem (data : List Nat) :
    ∀ p ∈ pixels data, p.1 ∈ data ∧ p.2.1 ∈ data ∧ p.2.2 ∈ data := by
  induction data using pixels.induct with
  | case1 r g b a rest ih =>
    intro p hp
    simp only [pixels, List.mem_cons] at hp
    rcases hp with h | h
    · subst h
      simp
    · have := ih p h
      simp [this]
  | case2 data hno =>
    intro p hp
    rw [pixels] at hp
    · simp at hp
    · exact hno

theorem pixels_bytePixel (data : List Nat) (hb : ∀ x ∈ data, x ≤ 255) :
    ∀ p ∈ pixels data, BytePixel p := by
  intro p hp
  obtain ⟨h1, h2, h3⟩ := pixels_mem data p hp
  exact ⟨hb _ h1, hb _ h2, hb _ h3⟩

theorem hexOf_eq (p : Nat × Nat × Nat) (hp : BytePixel p) :
    hexOf p = hexString p.1 p.2.1 p.2.2 :=
  rgbToHex_bytes _ _ _ hp.1 hp.2.1 hp.2.2

theorem hexOf_injective (p q : Nat × Nat × Nat) (hp : BytePixel p) (hq : BytePixel q)
    (h : hexOf p = hexOf q) : p = q := by
  rw [hexOf_eq p hp, hexOf_eq q hq] at h
  obtain ⟨h1, h2, h3⟩ := hexString_injective _ _ _ _ _ _ hp.1 hp.2.1 hp.2.2 hq.1 hq.2.1 hq.2.2 h
  obtain ⟨p1, p2, p3⟩ := p
  obtain ⟨q1, q2, q3⟩ := q
  simp only at h1 h2 h3
  simp [h1, h2, h3]

theorem count_map_hexOf (l : List (Nat × Nat × Nat)) (p : Nat × Nat × Nat)
    (hl : ∀ q ∈ l, BytePixel q) (hp : BytePixel p) :
    (l.map hexOf).count (hexOf p) = l.count p := by
  induction l with
  | nil => simp
  | cons q l ih =>
    have hq : BytePixel q := hl q (by simp)
    have ih' := ih (fun x hx => hl x (by simp [hx]))
    by_cases e : q = p
    · subst e
      simp [ih']
    · have e' : ¬ hexOf q = hexOf p := fun h => e (hexOf_injective q p hq hp h)
      simp [List.count_cons, e, e', ih']

theorem indexOf_map_hexOf (l : List (Nat × Nat × Nat)) (p : Nat × Nat × Nat)
    (hl : ∀ q ∈ l, BytePixel q) (hp : BytePixel p) :
    (l.map hexOf).indexOf (hexOf p) = l.indexOf p := by
  induction l with
  | nil => simp
  | cons q l ih =>
    have hq : BytePixel q := hl q (by simp)
    have ih' := ih (fun x hx => hl x (by simp [hx]))
    by_cases e : q = p
    · subst e
      simp [List.indexOf_cons]
    · have e' : ¬ hexOf q = hexOf p := fun h => e (hexOf_injective q p hq hp h)
      have eb : (q == p) = false := beq_eq_false_iff_ne.mpr e
      simp [List.indexOf_cons, eb, e', ih']

theorem pixels_ne_nil (data : List Nat) (hne : data ≠ []) (h4 : data.length % 4 = 0) :
    pixels data ≠ [] := by
  have hlen := pixels_length_eq data h4
  have hpos : 0 < data.length := List.length_pos.mpr hne
  intro h
  rw [h] at hlen
  simp at hlen
  omega

/-- The answer of the dominant worker on a buffer of whole pixels, all bytes:
the hex string of a pixel of the buffer that no pixel outnumbers, and that has
its first occurrence after that of every other colour that occurs as often. -/
theorem dominantWorker_pixels (data : List Nat) (hne : data ≠ []) (h4 : data.length % 4 = 0)
    (hb : ∀ x ∈ data, x ≤ 255) :
    ∃ p ∈ pixels data, dominantWorker data = some (hexOf p) ∧
      (∀ q ∈ pixels data, (pixels data).count q ≤ (pixels data).count p) ∧
      (∀ q ∈ pixels data, q ≠ p → (pixels data).count q = (pixels data).count p →
        (pixels data).indexOf q < (pixels data).indexOf p) := by
  have hbp := pixels_bytePixel data hb
  have hcolors := convertColorsToHex_eq data h4
  have hne' : (pixels data).map hexOf ≠ [] := by
    simpa using pixels_ne_nil data hne h4
  obtain ⟨res, hres, hmem, hmax, htie⟩ := getDominantColor_countColors _ hne'
  obtain ⟨p, hp, rfl⟩ := List.mem_map.mp hmem
  refine ⟨p, hp, ?_, ?_, ?_⟩
  · simp only [dominantWorker, hcolors, hres]
  · intro q hq
    have := hmax (hexOf q) (List.mem_map.mpr ⟨q, hq, rfl⟩)
    rwa [count_map_hexOf _ q hbp (hbp q hq), count_map_hexOf _ p hbp (hbp p hp)] at this
  · intro q hq hqp hcount
    have hne2 : hexOf q ≠ hexOf p := fun h => hqp (hexOf_injective q p (hbp q hq) (hbp p hp) h)
    have := htie (hexOf q) (List.mem_map.mpr ⟨q, hq, rfl⟩) hne2
      (by rw [count_map_hexOf _ q hbp (hbp q hq), count_map_hexOf _ p hbp (hbp p hp), hcount])
    rwa [indexOf_map_hexOf _ q hbp (hbp q hq), indexOf_map_hexOf _ p hbp (hbp p hp)] at this

theorem nodup_answer_is_last (colors : List String) (hne : colors ≠ []) (hnd : colors.Nodup)
    (res : String) (hmem : res ∈ colors)
    (htie : ∀ c ∈ colors, c ≠ res → colors.count c = colors.count res →
      colors.indexOf c < colors.indexOf res) :
    res = colors.getLast hne := by
  by_contra hdiff
  have hl : colors.getLast hne ∈ colors := List.getLast_mem hne
  have h1 := htie _ hl (fun e => hdiff e.symm)
    (by rw [List.count_eq_one_of_mem hnd hl, List.count_eq_one_of_mem hnd hmem])
  have hpos : 0 < colors.length := List.length_pos.mpr hne
  have h2 : colors.indexOf (colors.getLast hne) = colors.length - 1 := by
    rw [List.getLast_eq_getElem]
    exact List.indexOf_getElem hnd (colors.length - 1) (by omega)
  have h3 : colors.indexOf res < colors.length := List.indexOf_lt_length.mpr hmem
  omega

/-! ## The properties -/

/-- C4. For all bytes `r`, `g`, `b`, `rgbToHex(r, g, b)` is a string of exactly
7 characters: `#`, then the two zero-padded lowercase hexadecimal digits of `r`,
then those of `g`, then those of `b`; `rgbToHex(0,0,0)` is `#000000`,
`rgbToHex(1,1,1)` is `#010101` and `rgbToHex(255,0,0)` is `#ff0000`. -/
theorem rgbToHex_format (r g b : Nat) (hr : r ≤ 255) (hg : g ≤ 255) (hb : b ≤ 255) :
    (rgbToHex (.num r) (.num g) (.num b)).length = 7 ∧
    rgbToHex (.num r) (.num g) (.num b) = String.mk ('#' :: (hex2 r ++ hex2 g ++ hex2 b)) ∧
    rgbToHex (.num 0) (.num 0) (.num 0) = "#000000" ∧
    rgbToHex (.num 1) (.num 1) (.num 1) = "#010101" ∧
    rgbToHex (.num 255) (.num 0) (.num 0) = "#ff0000" := by
  refine ⟨?_, ?_, by decide, by decide, by decide⟩
  · rw [rgbToHex_bytes r g b hr hg hb]
    exact hexString_length r g b
  · exact rgbToHex_bytes r g b hr hg hb

theorem rgbToHex_format_witness :
    (171 ≤ 255 ∧ 205 ≤ 255 ∧ 9 ≤ 255) ∧
    (rgbToHex (.num 171) (.num 205) (.num 9)).length = 7 ∧
    rgbToHex (.num 171) (.num 205) (.num 9) =
      String.mk ('#' :: (hex2 171 ++ hex2 205 ++ hex2 9)) ∧
    rgbToHex (.num 0) (.num 0) (.num 0) = "#000000" ∧
    rgbToHex (.num 1) (.num 1) (.num 1) = "#010101" ∧
    rgbToHex (.num 255) (.num 0) (.num 0) = "#ff0000" :=
  ⟨by decide, rgbToHex_format 171 205 9 (by decide) (by decide) (by decide)⟩

/-- C2. For every non-empty buffer whose length is a multiple of 4,
`getAverageRGBColor` returns for each of the channels R, G and B the sum of the
channel over the pixels divided by the number of pixels, rounded down (alpha is
in no sum), and the worker answers `rgbToHex` of the three values; the buffer
of the two pixels `(0,0,0,a)` and `(3,3,3,a')` gives `#010101`. -/
theorem average_is_floor (data : List Nat) (hne : data ≠ []) (h4 : data.length % 4 = 0) :
    (pixels data).length = data.length / 4 ∧
    getAverageRGBColor data =
      (.num (sumR data / (pixels data).length), .num (sumG data / (pixels data).length),
        .num (sumB data / (pixels data).length)) ∧
    averageWorker data =
      rgbToHex (.num (sumR data / (pixels data).length)) (.num (sumG data / (pixels data).length))
        (.num (sumB data / (pixels data).length)) ∧
    (∀ a a' : Nat, getAverageRGBColor [0, 0, 0, a, 3, 3, 3, a'] = (.num 1, .num 1, .num 1) ∧
      averageWorker [0, 0, 0, a, 3, 3, 3, a'] = "#010101") := by
  have hlen := pixels_length_eq data h4
  have havg := getAverageRGBColor_eq data hne h4
  refine ⟨hlen, ?_, ?_, ?_⟩
  · rw [hlen]; exact havg
  · simp only [averageWorker, havg, hlen]
  · intro a a'
    have h := getAverageRGBColor_eq [0, 0, 0, a, 3, 3, 3, a'] (by simp) (by simp)
    have e : getAverageRGBColor [0, 0, 0, a, 3, 3, 3, a'] = (.num 1, .num 1, .num 1) := by
      rw [h]
      simp [sumR, sumG, sumB, pixels]
    refine ⟨e, ?_⟩
    simp only [averageWorker, e]
    decide

theorem average_is_floor_witness :
    ([10, 20, 30, 255, 13, 21, 35, 0] ≠ [] ∧ [10, 20, 30, 255, 13, 21, 35, 0].length % 4 = 0) ∧
    getAverageRGBColor [10, 20, 30, 255, 13, 21, 35, 0] = (.num 11, .num 20, .num 32) ∧
    averageWorker [10, 20, 30, 255, 13, 21, 35, 0] = "#0b1420" :=
  ⟨by decide,
    (average_is_floor [10, 20, 30, 255, 13, 21, 35, 0] (by decide) (by decide)).2.1,
    (average_is_floor [10, 20, 30, 255, 13, 21, 35, 0] (by decide) (by decide)).2.2.1⟩

/-- C1. For every non-empty buffer of bytes whose length is a multiple of 4,
the dominant worker answers the hex string of a pixel of the buffer whose
colour occurs at least as often as every colour of the buffer; when one colour
occurs more often than every other colour, the answer is the hex string of that
colour. -/
theorem dominant_is_most_frequent (data : List Nat) (hne : data ≠ [])
    (h4 : data.length % 4 = 0) (hb : ∀ x ∈ data, x ≤ 255) :
    (∃ p ∈ pixels data,
      getDominantColor (countColors (convertColorsToHex data)) =
        some (rgbToHex (.num p.1) (.num p.2.1) (.num p.2.2)) ∧
      dominantWorker data = some (hexString p.1 p.2.1 p.2.2) ∧
      ∀ q ∈ pixels data, (pixels data).count q ≤ (pixels data).count p) ∧
    (∀ p ∈ pixels data,
      (∀ q ∈ pixels data, q ≠ p → (pixels data).count q < (pixels data).count p) →
      dominantWorker data = some (hexString p.1 p.2.1 p.2.2)) := by
  obtain ⟨p, hp, hres, hmax, _⟩ := dominantWorker_pixels data hne h4 hb
  have hbp := pixels_bytePixel data hb
  refine ⟨⟨p, hp, hres, ?_, hmax⟩, ?_⟩
  · rw [hres, hexOf_eq p (hbp p hp)]
  · intro q hq hstrict
    by_cases e : p = q
    · subst e
      rw [hres, hexOf_eq p (hbp p hp)]
    · have h1 := hstrict p hp e
      have h2 := hmax q hq
      omega

theorem dominant_is_most_frequent_witness :
    ([1, 2, 3, 255, 9, 9, 9, 255, 9, 9, 9, 0, 9, 9, 9, 7] ≠ [] ∧
      [1, 2, 3, 255, 9, 9, 9, 255, 9, 9, 9, 0, 9, 9, 9, 7].length % 4 = 0 ∧
      ∀ x ∈ [1, 2, 3, 255, 9, 9, 9, 255, 9, 9, 9, 0, 9, 9, 9, 7], x ≤ 255) ∧
    (∀ p ∈ pixels [1, 2, 3, 255, 9, 9, 9, 255, 9, 9, 9, 0, 9, 9, 9, 7],
      (∀ q ∈ pixels [1, 2, 3, 255, 9, 9, 9, 255, 9, 9, 9, 0, 9, 9, 9, 7], q ≠ p →
        (pixels [1, 2, 3, 255, 9, 9, 9, 255, 9, 9, 9, 0, 9, 9, 9, 7]).count q <
          (pixels [1, 2, 3, 255, 9, 9, 9, 255, 9, 9, 9, 0, 9, 9, 9, 7]).count p) →
      dominantWorker [1, 2, 3, 255, 9, 9, 9, 255, 9, 9, 9, 0, 9, 9, 9, 7] =
        some (hexString p.1 p.2.1 p.2.2)) :=
  ⟨by decide,
    (dominant_is_most_frequent [1, 2, 3, 255, 9, 9, 9, 255, 9, 9, 9, 0, 9, 9, 9, 7]
      (by decide) (by decide) (by decide)).2⟩

/-- C3, as the claim states it, fails: in the buffer of the pixels red, green,
red, green both colours occur twice and red occurs first, and the answer is
green; in a buffer of three distinct colours the answer is the last pixel. -/
theorem tie_earliest_wins_counterexample :
    (pixels [255, 0, 0, 255, 0, 255, 0, 255, 255, 0, 0, 255, 0, 255, 0, 255]).count (255, 0, 0) =
      (pixels [255, 0, 0, 255, 0, 255, 0, 255, 255, 0, 0, 255, 0, 255, 0, 255]).count (0, 255, 0) ∧
    dominantWorker [255, 0, 0, 255, 0, 255, 0, 255, 255, 0, 0, 255, 0, 255, 0, 255] =
      some "#00ff00" ∧
    dominantWorker [255, 0, 0, 255, 0, 255, 0, 255, 255, 0, 0, 255, 0, 255, 0, 255] ≠
      some "#ff0000" ∧
    dominantWorker [1, 1, 1, 255, 2, 2, 2, 255, 3, 3, 3, 255] = some "#030303" ∧
    dominantWorker [1, 1, 1, 255, 2, 2, 2, 255, 3, 3, 3, 255] ≠ some "#010101" := by
  decide

/-- C3, amended. For every non-empty buffer of bytes whose length is a multiple
of 4, when several colours share the greatest number of occurrences the
dominant worker answers the one whose first occurrence in the buffer is the
latest (the current best is kept only when its count is strictly greater than
that of the later colour): every other colour that occurs as often as the
answer has its first occurrence before that of the answer. The buffer red,
green, red, green gives `#00ff00`, and a buffer in which every pixel has a
distinct colour gives the colour of the last pixel. -/
theorem dominant_tie_latest_wins (data : List Nat) (hne : data ≠ [])
    (h4 : data.length % 4 = 0) (hb : ∀ x ∈ data, x ≤ 255) :
    (∃ p ∈ pixels data, dominantWorker data = some (hexString p.1 p.2.1 p.2.2) ∧
      (∀ q ∈ pixels data, (pixels data).count q ≤ (pixels data).count p) ∧
      (∀ q ∈ pixels data, q ≠ p → (pixels data).count q = (pixels data).count p →
        (pixels data).indexOf q < (pixels data).indexOf p)) ∧
    (∀ a1 a2 a3 a4 : Nat,
      dominantWorker [255, 0, 0, a1, 0, 255, 0, a2, 255, 0, 0, a3, 0, 255, 0, a4] =
        some "#00ff00") ∧
    ((pixels data).Nodup →
      ∃ p, (pixels data).getLast? = some p ∧
        dominantWorker data = some (hexString p.1 p.2.1 p.2.2)) := by
  have hbp := pixels_bytePixel data hb
  refine ⟨?_, ?_, ?_⟩
  · obtain ⟨p, hp, hres, hmax, htie⟩ := dominantWorker_pixels data hne h4 hb
    exact ⟨p, hp, by rw [hres, hexOf_eq p (hbp p hp)], hmax, htie⟩
  · intro a1 a2 a3 a4
    have hc : convertColorsToHex [255, 0, 0, a1, 0, 255, 0, a2, 255, 0, 0, a3, 0, 255, 0, a4] =
        [(255, 0, 0), (0, 255, 0), (255, 0, 0), (0, 255, 0)].map hexOf := by
      rw [convertColorsToHex_eq _ (by simp)]
      simp [pixels]
    simp only [dominantWorker, hc]
    decide
  · intro hnd
    have hpne := pixels_ne_nil data hne h4
    have hcolors := convertColorsToHex_eq data h4
    have hne' : (pixels data).map hexOf ≠ [] := by simpa using hpne
    have hnd' : ((pixels data).map hexOf).Nodup :=
      List.Nodup.map_on (fun x hx y hy e => hexOf_injective x y (hbp x hx) (hbp y hy) e) hnd
    obtain ⟨res, hres, hmem, _, htie⟩ := getDominantColor_countColors _ hne'
    have hlast := nodup_answer_is_last _ hne' hnd' res hmem htie
    rw [List.getLast_map] at hlast
    refine ⟨(pixels data).getLast hpne, List.getLast?_eq_getLast _ hpne, ?_⟩
    rw [← hexOf_eq _ (hbp _ (List.getLast_mem hpne)), ← hlast]
    simp only [dominantWorker, hcolors, hres]

theorem dominant_tie_latest_wins_witness :
    ([7, 7, 7, 255, 8, 8, 8, 255, 8, 8, 8, 0, 7, 7, 7, 7] ≠ [] ∧
      [7, 7, 7, 255, 8, 8, 8, 255, 8, 8, 8, 0, 7, 7, 7, 7].length % 4 = 0 ∧
      ∀ x ∈ [7, 7, 7, 255, 8, 8, 8, 255, 8, 8, 8, 0, 7, 7, 7, 7], x ≤ 255) ∧
    ∃ p ∈ pixels [7, 7, 7, 255, 8, 8, 8, 255, 8, 8, 8, 0, 7, 7, 7, 7],
      dominantWorker [7, 7, 7, 255, 8, 8, 8, 255, 8, 8, 8, 0, 7, 7, 7, 7] =
        some (hexString p.1 p.2.1 p.2.2) ∧
      (∀ q ∈ pixels [7, 7, 7, 255, 8, 8, 8, 255, 8, 8, 8, 0, 7, 7, 7, 7],
        (pixels [7, 7, 7, 255, 8, 8, 8, 255, 8, 8, 8, 0, 7, 7, 7, 7]).count q ≤
          (pixels [7, 7, 7, 255, 8, 8, 8, 255, 8, 8, 8, 0, 7, 7, 7, 7]).count p) ∧
      (∀ q ∈ pixels [7, 7, 7, 255, 8, 8, 8, 255, 8, 8, 8, 0, 7, 7, 7, 7], q ≠ p →
        (pixels [7, 7, 7, 255, 8, 8, 8, 255, 8, 8, 8, 0, 7, 7, 7, 7]).count q =
          (pixels [7, 7, 7, 255, 8, 8, 8, 255, 8, 8, 8, 0, 7, 7, 7, 7]).count p →
        (pixels [7, 7, 7, 255, 8, 8, 8, 255, 8, 8, 8, 0, 7, 7, 7, 7]).indexOf q <
          (pixels [7, 7, 7, 255, 8, 8, 8, 255, 8, 8, 8, 0, 7, 7, 7, 7]).indexOf p) :=
  ⟨by decide,
    (dominant_tie_latest_wins [7, 7, 7, 255, 8, 8, 8, 255, 8, 8, 8, 0, 7, 7, 7, 7]
      (by decide) (by decide) (by decide)).1⟩

theorem convertLoop_congr (d1 d2 : List Nat) (hlen : d1.length = d2.length)
    (hread : ∀ j, j % 4 ≠ 3 → readAt d1 j = readAt d2 j) (fuel : Nat) :
    ∀ (i : Nat) (colors : List String), i % 4 = 0 →
      convertLoop d1 fuel i colors = convertLoop d2 fuel i colors := by
  induction fuel with
  | zero => intro i colors _; rfl
  | succ fuel ih =>
    intro i colors hi
    simp only [convertLoop, hlen]
    rw [hread i (by omega), hread (i + 1) (by omega), hread (i + 2) (by omega),
      ih (i + 4) _ (by omega)]

theorem averageLoop_congr (d1 d2 : List Nat) (hlen : d1.length = d2.length)
    (hread : ∀ j, j % 4 ≠ 3 → readAt d1 j = readAt d2 j) (fuel : Nat) :
    ∀ (i : Nat) (st : AvgState), i % 4 = 0 →
      averageLoop d1 fuel i st = averageLoop d2 fuel i st := by
  induction fuel with
  | zero => intro i st _; rfl
  | succ fuel ih =>
    intro i st hi
    simp only [averageLoop, hlen]
    rw [hread i (by omega), hread (i + 1) (by omega), hread (i + 2) (by omega),
      ih (i + 4) _ (by omega)]

/-- C7. Two buffers of the same length that agree on every R, G and B byte,
and so differ at most in alpha bytes (the indices `i` with `i % 4 = 3`), get
the same answer from the average worker and the same answer from the dominant
worker; this holds for every length, so for the non-empty buffers whose length
is a multiple of 4. -/
theorem alpha_invariance (d1 d2 : List Nat) (hlen : d1.length = d2.length)
    (hrgb : ∀ i, i < d1.length → i % 4 ≠ 3 → d1[i]? = d2[i]?) :
    getAverageRGBColor d1 = getAverageRGBColor d2 ∧
    averageWorker d1 = averageWorker d2 ∧
    convertColorsToHex d1 = convertColorsToHex d2 ∧
    dominantWorker d1 = dominantWorker d2 := by
  have hread : ∀ j, j % 4 ≠ 3 → readAt d1 j = readAt d2 j := by
    intro j hj
    by_cases hlt : j < d1.length
    · simp only [readAt, hrgb j hlt hj]
    · have h1 : d1[j]? = none := List.getElem?_eq_none (by omega)
      have h2 : d2[j]? = none := List.getElem?_eq_none (by omega)
      simp only [readAt, h1, h2]
  have havg : getAverageRGBColor d1 = getAverageRGBColor d2 := by
    simp only [getAverageRGBColor]
    rw [averageLoop_congr d1 d2 hlen hread d1.length 0 _ (by simp), hlen]
  have hconv : convertColorsToHex d1 = convertColorsToHex d2 := by
    simp only [convertColorsToHex]
    rw [convertLoop_congr d1 d2 hlen hread d1.length 0 _ (by simp), hlen]
  refine ⟨havg, ?_, hconv, ?_⟩
  · simp only [averageWorker, havg]
  · simp only [dominantWorker, hconv]

theorem alpha_invariance_witness :
    ([1, 2, 3, 255, 4, 5, 6, 255].length = [1, 2, 3, 0, 4, 5, 6, 17].length ∧
      ∀ i, i < [1, 2, 3, 255, 4, 5, 6, 255].length → i % 4 ≠ 3 →
        [1, 2, 3, 255, 4, 5, 6, 255][i]? = [1, 2, 3, 0, 4, 5, 6, 17][i]?) ∧
    averageWorker [1, 2, 3, 255, 4, 5, 6, 255] = averageWorker [1, 2, 3, 0, 4, 5, 6, 17] ∧
    dominantWorker [1, 2, 3, 255, 4, 5, 6, 255] = dominantWorker [1, 2, 3, 0, 4, 5, 6, 17] :=
  ⟨⟨by decide, by
      intro i hi h3
      have hi' : i < 8 := hi
      interval_cases i <;> simp_all⟩,
    (alpha_invariance [1, 2, 3, 255, 4, 5, 6, 255] [1, 2, 3, 0, 4, 5, 6, 17] (by decide)
      (by
        intro i hi h3
        have hi' : i < 8 := hi
        interval_cases i <;> simp_all)).2.1,
    (alpha_invariance [1, 2, 3, 255, 4, 5, 6, 255] [1, 2, 3, 0, 4, 5, 6, 17] (by decide)
      (by
        intro i hi h3
        have hi' : i < 8 := hi
        interval_cases i <;> simp_all)).2.2.2⟩

theorem uniformBuffer_length (r g b : Nat) (alphas : List Nat) :
    (uniformBuffer r g b alphas).length = 4 * alphas.length := by
  induction alphas with
  | nil => rfl
  | cons a alphas ih => simp [uniformBuffer, ih]; omega

theorem pixels_uniformBuffer (r g b : Nat) (alphas : List Nat) :
    pixels (uniformBuffer r g b alphas) = List.replicate alphas.length (r, g, b) := by
  induction alphas with
  | nil => rfl
  | cons a alphas ih => simp [uniformBuffer, pixels, ih, List.replicate_succ]

/-- C8. On a buffer of `n ≥ 1` pixels that all have the colour `(r, g, b)`,
bytes, with any alpha per pixel, `getAverageRGBColor` returns `[r, g, b]` and
the dominant pipeline returns `rgbToHex(r, g, b)`: both workers answer the same
hex string. -/
theorem uniform_buffer_identity (r g b : Nat) (alphas : List Nat) (hn : 1 ≤ alphas.length)
    (hr : r ≤ 255) (hg : g ≤ 255) (hb : b ≤ 255) :
    (pixels (uniformBuffer r g b alphas)).length = alphas.length ∧
    (∀ p ∈ pixels (uniformBuffer r g b alphas), p = (r, g, b)) ∧
    getAverageRGBColor (uniformBuffer r g b alphas) = (.num r, .num g, .num b) ∧
    getDominantColor (countColors (convertColorsToHex (uniformBuffer r g b alphas))) =
      some (rgbToHex (.num r) (.num g) (.num b)) ∧
    averageWorker (uniformBuffer r g b alphas) = hexString r g b ∧
    dominantWorker (uniformBuffer r g b alphas) = some (hexString r g b) := by
  have hlen := uniformBuffer_length r g b alphas
  have hpix := pixels_uniformBuffer r g b alphas
  have hne : uniformBuffer r g b alphas ≠ [] := by
    intro h
    rw [h, List.length_nil] at hlen
    omega
  have h4 : (uniformBuffer r g b alphas).length % 4 = 0 := by omega
  have hnpos : 0 < alphas.length := by omega
  have havg : getAverageRGBColor (uniformBuffer r g b alphas) = (.num r, .num g, .num b) := by
    rw [getAverageRGBColor_eq _ hne h4, hlen]
    have hq : 4 * alphas.length / 4 = alphas.length := by omega
    simp only [hq, sumR, sumG, sumB, hpix, List.map_replicate, List.sum_replicate,
      smul_eq_mul, Nat.mul_div_cancel_left _ hnpos]
  have hcolors := convertColorsToHex_eq _ h4
  rw [hpix, List.map_replicate] at hcolors
  have hcne : List.replicate alphas.length (hexOf (r, g, b)) ≠ [] := by
    intro h
    have := congrArg List.length h
    rw [List.length_replicate, List.length_nil] at this
    omega
  obtain ⟨res, hres, hmem, _, _⟩ := getDominantColor_countColors _ hcne
  have hres' : res = hexOf (r, g, b) := List.eq_of_mem_replicate hmem
  have hdom : getDominantColor (countColors (convertColorsToHex (uniformBuffer r g b alphas))) =
      some (rgbToHex (.num r) (.num g) (.num b)) := by
    rw [hcolors, hres, hres']
    rfl
  refine ⟨by simp [hpix], ?_, havg, hdom, ?_, ?_⟩
  · intro p hp
    rw [hpix] at hp
    exact List.eq_of_mem_replicate hp
  · simp only [averageWorker, havg]
    exact rgbToHex_bytes r g b hr hg hb
  · simp only [dominantWorker, hdom]
    rw [rgbToHex_bytes r g b hr hg hb]

theorem uniform_buffer_identity_witness :
    (1 ≤ [255, 0, 128].length ∧ 18 ≤ 255 ∧ 52 ≤ 255 ∧ 86 ≤ 255) ∧
    getAverageRGBColor (uniformBuffer 18 52 86 [255, 0, 128]) = (.num 18, .num 52, .num 86) ∧
    averageWorker (uniformBuffer 18 52 86 [255, 0, 128]) = hexString 18 52 86 ∧
    dominantWorker (uniformBuffer 18 52 86 [255, 0, 128]) = some (hexString 18 52 86) :=
  ⟨by decide,
    (uniform_buffer_identity 18 52 86 [255, 0, 128] (by decide) (by decide) (by decide)
      (by decide)).2.2.1,
    (uniform_buffer_identity 18 52 86 [255, 0, 128] (by decide) (by decide) (by decide)
      (by decide)).2.2.2.2⟩

theorem TallyOf.nodup_keys {pre : List String} {acc : List (String × Nat)}
    (h : TallyOf pre acc) : (objectKeys acc).Nodup := by
  refine List.Pairwise.imp ?_ h.order
  intro a b hab e
  rw [e] at hab
  exact Nat.lt_irrefl _ hab

theorem objGet_of_mem (acc : List (String × Nat)) (hnd : (objectKeys acc).Nodup) (k : String)
    (v : Nat) (hmem : (k, v) ∈ acc) : objGet acc k = some v := by
  induction acc with
  | nil => simp at hmem
  | cons e rest ih =>
    obtain ⟨k0, w⟩ := e
    simp only [objectKeys, List.map_cons, List.nodup_cons] at hnd
    rcases List.mem_cons.mp hmem with h | h
    · have h1 : k = k0 := congrArg Prod.fst h
      have h2 : v = w := congrArg Prod.snd h
      simp [objGet, h1, h2]
    · have hk : k ∈ List.map Prod.fst rest := List.mem_map.mpr ⟨(k, v), h, rfl⟩
      have hne : ¬ k0 = k := by
        intro e
        rw [e] at hnd
        exact hnd.1 hk
      simp only [objGet, hne, if_false]
      exact ih hnd.2 h

theorem indexOf_lt_of_pairwise (keys : List String) (f : String → Nat)
    (hp : keys.Pairwise (fun a b => f a < f b)) (a b : String) (ha : a ∈ keys) (hb : b ∈ keys)
    (hab : f a < f b) : keys.indexOf a < keys.indexOf b := by
  by_contra hnot
  have hia : keys.indexOf a < keys.length := List.indexOf_lt_length.mpr ha
  have hib : keys.indexOf b < keys.length := List.indexOf_lt_length.mpr hb
  rcases Nat.lt_or_ge (keys.indexOf b) (keys.indexOf a) with h | h
  · have := List.pairwise_iff_getElem.mp hp _ _ hib hia h
    rw [List.getElem_indexOf hib, List.getElem_indexOf hia] at this
    omega
  · have he : keys.indexOf a = keys.indexOf b := by omega
    have := (List.indexOf_inj ha hb).mp he
    rw [this] at hab
    exact Nat.lt_irrefl _ hab

/-- C9. For every buffer of bytes whose length is a multiple of 4 and every
colour `(r, g, b)` of bytes, the tally holds under the key `rgbToHex(r, g, b)`
the number of pixels of that colour when there is one, and has no entry for the
key otherwise. Two different colours never have the same key, every stored
count is positive, the counts add up to the number of pixels, no key occurs
twice, the keys are the hex strings of the pixels, and the keys are in the
order of the first occurrences of their colours in the buffer. -/
theorem tally_counts_exactly (data : List Nat) (h4 : data.length % 4 = 0)
    (hb : ∀ x ∈ data, x ≤ 255) :
    (∀ r g b : Nat, r ≤ 255 → g ≤ 255 → b ≤ 255 →
      objGet (countColors (convertColorsToHex data)) (rgbToHex (.num r) (.num g) (.num b)) =
        if (pixels data).count (r, g, b) = 0 then none
        else some ((pixels data).count (r, g, b))) ∧
    (∀ r g b r' g' b' : Nat, r ≤ 255 → g ≤ 255 → b ≤ 255 → r' ≤ 255 → g' ≤ 255 → b' ≤ 255 →
      rgbToHex (.num r) (.num g) (.num b) = rgbToHex (.num r') (.num g') (.num b') →
      r = r' ∧ g = g' ∧ b = b') ∧
    (∀ k v, (k, v) ∈ countColors (convertColorsToHex data) → 0 < v) ∧
    ((countColors (convertColorsToHex data)).map Prod.snd).sum = (pixels data).length ∧
    (objectKeys (countColors (convertColorsToHex data))).Nodup ∧
    (∀ k, k ∈ objectKeys (countColors (convertColorsToHex data)) ↔
      ∃ p ∈ pixels data, k = rgbToHex (.num p.1) (.num p.2.1) (.num p.2.2)) ∧
    (∀ p ∈ pixels data, ∀ q ∈ pixels data,
      (pixels data).indexOf p < (pixels data).indexOf q →
      (objectKeys (countColors (convertColorsToHex data))).indexOf
          (rgbToHex (.num p.1) (.num p.2.1) (.num p.2.2)) <
        (objectKeys (countColors (convertColorsToHex data))).indexOf
          (rgbToHex (.num q.1) (.num q.2.1) (.num q.2.2))) := by
  have hbp := pixels_bytePixel data hb
  have hcolors := convertColorsToHex_eq data h4
  have ht := countColors_tally (convertColorsToHex data)
  rw [hcolors] at ht ⊢
  have hkeys : ∀ k, k ∈ objectKeys (countColors ((pixels data).map hexOf)) ↔
      ∃ p ∈ pixels data, k = hexOf p := by
    intro k
    rw [ht.mem_keys k, List.mem_map]
    constructor
    · rintro ⟨p, hp, e⟩
      exact ⟨p, hp, e.symm⟩
    · rintro ⟨p, hp, e⟩
      exact ⟨p, hp, e.symm⟩
  refine ⟨?_, ?_, ?_, ?_, ht.nodup_keys, hkeys, ?_⟩
  · intro r g b hr hg hb'
    have hp : BytePixel (r, g, b) := ⟨hr, hg, hb'⟩
    have := ht.get (hexOf (r, g, b))
    rw [count_map_hexOf _ _ hbp hp] at this
    exact this
  · intro r g b r' g' b' hr hg hb' hr' hg' hb2 e
    rw [rgbToHex_bytes r g b hr hg hb', rgbToHex_bytes r' g' b' hr' hg' hb2] at e
    exact hexString_injective _ _ _ _ _ _ hr hg hb' hr' hg' hb2 e
  · intro k v hkv
    have h1 := objGet_of_mem _ ht.nodup_keys k v hkv
    rw [ht.get k] at h1
    by_cases hc : List.count k ((pixels data).map hexOf) = 0
    · simp [hc] at h1
    · simp only [hc, if_false, Option.some.injEq] at h1
      omega
  · rw [ht.total, List.length_map]
  · intro p hp q hq hpq
    apply indexOf_lt_of_pairwise _ _ ht.order
    · exact (hkeys _).mpr ⟨p, hp, rfl⟩
    · exact (hkeys _).mpr ⟨q, hq, rfl⟩
    · have e1 := indexOf_map_hexOf _ p hbp (hbp p hp)
      have e2 := indexOf_map_hexOf _ q hbp (hbp q hq)
      simp only [hexOf] at e1 e2
      rw [e1, e2]
      exact hpq

theorem tally_counts_exactly_witness :
    ([255, 0, 0, 255, 0, 255, 0, 255, 255, 0, 0, 9].length % 4 = 0 ∧
      ∀ x ∈ [255, 0, 0, 255, 0, 255, 0, 255, 255, 0, 0, 9], x ≤ 255) ∧
    (∀ r g b : Nat, r ≤ 255 → g ≤ 255 → b ≤ 255 →
      objGet (countColors (convertColorsToHex [255, 0, 0, 255, 0, 255, 0, 255, 255, 0, 0, 9]))
          (rgbToHex (.num r) (.num g) (.num b)) =
        if (pixels [255, 0, 0, 255, 0, 255, 0, 255, 255, 0, 0, 9]).count (r, g, b) = 0 then none
        else some ((pixels [255, 0, 0, 255, 0, 255, 0, 255, 255, 0, 0, 9]).count (r, g, b))) ∧
    countColors (convertColorsToHex [255, 0, 0, 255, 0, 255, 0, 255, 255, 0, 0, 9]) =
      [("#ff0000", 2), ("#00ff00", 1)] :=
  ⟨by decide,
    (tally_counts_exactly [255, 0, 0, 255, 0, 255, 0, 255, 255, 0, 0, 9] (by decide)
      (by decide)).1,
    by decide⟩

theorem sum_bounds (l : List Nat) (lo hi : Nat) (h : ∀ x ∈ l, lo ≤ x ∧ x ≤ hi) :
    lo * l.length ≤ l.sum ∧ l.sum ≤ hi * l.length := by
  induction l with
  | nil => simp
  | cons x l ih =>
    have hx := h x (by simp)
    have ih' := ih (fun y hy => h y (by simp [hy]))
    simp only [List.length_cons, List.sum_cons, Nat.mul_succ]
    omega

theorem mean_bounds (l : List Nat) (hne : l ≠ []) (lo hi : Nat)
    (h : ∀ x ∈ l, lo ≤ x ∧ x ≤ hi) : lo ≤ l.sum / l.length ∧ l.sum / l.length ≤ hi := by
  have hpos : 0 < l.length := List.length_pos.mpr hne
  obtain ⟨h1, h2⟩ := sum_bounds l lo hi h
  refine ⟨(Nat.le_div_iff_mul_le hpos).mpr h1, Nat.div_le_of_le_mul ?_⟩
  rw [Nat.mul_comm]
  exact h2

/-- C10. For every non-empty buffer of bytes whose length is a multiple of 4,
every channel that `getAverageRGBColor` returns is an integer between the
least and the greatest value of the channel over the pixels (it is at least
every lower bound and at most every upper bound of the channel), so it is a
byte, and the answer of the average worker is a string of 7 characters, `#`
and two hexadecimal digits per channel. -/
theorem average_in_range (data : List Nat) (hne : data ≠ []) (h4 : data.length % 4 = 0)
    (hb : ∀ x ∈ data, x ≤ 255) :
    ∃ r g b : Nat, getAverageRGBColor data = (.num r, .num g, .num b) ∧
      (∀ lo hi, (∀ p ∈ pixels data, lo ≤ p.1 ∧ p.1 ≤ hi) → lo ≤ r ∧ r ≤ hi) ∧
      (∀ lo hi, (∀ p ∈ pixels data, lo ≤ p.2.1 ∧ p.2.1 ≤ hi) → lo ≤ g ∧ g ≤ hi) ∧
      (∀ lo hi, (∀ p ∈ pixels data, lo ≤ p.2.2 ∧ p.2.2 ≤ hi) → lo ≤ b ∧ b ≤ hi) ∧
      (r ≤ 255 ∧ g ≤ 255 ∧ b ≤ 255) ∧
      (averageWorker data).length = 7 ∧
      averageWorker data = String.mk ('#' :: (hex2 r ++ hex2 g ++ hex2 b)) := by
  have hbp := pixels_bytePixel data hb
  have hpne := pixels_ne_nil data hne h4
  have havg := (average_floor_aux data hne h4)
  have hR : ∀ lo hi, (∀ p ∈ pixels data, lo ≤ p.1 ∧ p.1 ≤ hi) →
      lo ≤ sumR data / (pixels data).length ∧ sumR data / (pixels data).length ≤ hi := by
    intro lo hi h
    have := mean_bounds ((pixels data).map (fun p => p.1)) (by simpa using hpne) lo hi
      (by
        intro x hx
        obtain ⟨p, hp, rfl⟩ := List.mem_map.mp hx
        exact h p hp)
    simpa [sumR] using this
  have hG : ∀ lo hi, (∀ p ∈ pixels data, lo ≤ p.2.1 ∧ p.2.1 ≤ hi) →
      lo ≤ sumG data / (pixels data).length ∧ sumG data / (pixels data).length ≤ hi := by
    intro lo hi h
    have := mean_bounds ((pixels data).map (fun p => p.2.1)) (by simpa using hpne) lo hi
      (by
        intro x hx
        obtain ⟨p, hp, rfl⟩ := List.mem_map.mp hx
        exact h p hp)
    simpa [sumG] using this
  have hB : ∀ lo hi, (∀ p ∈ pixels data, lo ≤ p.2.2 ∧ p.2.2 ≤ hi) →
      lo ≤ sumB data / (pixels data).length ∧ sumB data / (pixels data).length ≤ hi := by
    intro lo hi h
    have := mean_bounds ((pixels data).map (fun p => p.2.2)) (by simpa using hpne) lo hi
      (by
        intro x hx
        obtain ⟨p, hp, rfl⟩ := List.mem_map.mp hx
        exact h p hp)
    simpa [sumB] using this
  have hr := (hR 0 255 (fun p hp => ⟨Nat.zero_le _, (hbp p hp).1⟩)).2
  have hg := (hG 0 255 (fun p hp => ⟨Nat.zero_le _, (hbp p hp).2.1⟩)).2
  have hb' := (hB 0 255 (fun p hp => ⟨Nat.zero_le _, (hbp p hp).2.2⟩)).2
  have hw : averageWorker data =
      hexString (sumR data / (pixels data).length) (sumG data / (pixels data).length)
        (sumB data / (pixels data).length) := by
    simp only [averageWorker, havg]
    exact rgbToHex_bytes _ _ _ hr hg hb'
  refine ⟨_, _, _, havg, hR, hG, hB, ⟨hr, hg, hb'⟩, ?_, hw⟩
  rw [hw]
  exact hexString_length _ _ _

theorem average_in_range_witness :
    ([10, 200, 30, 255, 13, 100, 35, 0] ≠ [] ∧ [10, 200, 30, 255, 13, 100, 35, 0].length % 4 = 0 ∧
      ∀ x ∈ [10, 200, 30, 255, 13, 100, 35, 0], x ≤ 255) ∧
    ∃ r g b : Nat,
      getAverageRGBColor [10, 200, 30, 255, 13, 100, 35, 0] = (.num r, .num g, .num b) ∧
      (r ≤ 255 ∧ g ≤ 255 ∧ b ≤ 255) ∧
      (averageWorker [10, 200, 30, 255, 13, 100, 35, 0]).length = 7 :=
  ⟨by decide,
    match average_in_range [10, 200, 30, 255, 13, 100, 35, 0] (by decide) (by decide)
      (by decide) with
    | ⟨r, g, b, h1, _, _, _, h5, h6, _⟩ => ⟨r, g, b, h1, h5, h6⟩⟩

theorem convertLoop_length_ge (data : List Nat) (fuel : Nat) :
    ∀ (i : Nat) (colors : List String),
      colors.length ≤ (convertLoop data fuel i colors).length := by
  induction fuel with
  | zero => intro i colors; exact Nat.le_refl _
  | succ fuel ih =>
    intro i colors
    simp only [convertLoop]
    split
    · have := ih (i + 4)
        (colors ++ [rgbToHex (readAt data i) (readAt data (i + 1)) (readAt data (i + 2))])
      simp only [List.length_append, List.length_singleton] at this
      omega
    · exact Nat.le_refl _

theorem convertColorsToHex_ne_nil (data : List Nat) (hne : data ≠ []) :
    convertColorsToHex data ≠ [] := by
  have hpos : 0 < data.length := List.length_pos.mpr hne
  obtain ⟨f, hf⟩ : ∃ f, data.length = f + 1 := ⟨data.length - 1, by omega⟩
  unfold convertColorsToHex
  rw [hf, convertLoop, if_pos hpos]
  intro h
  have := convertLoop_length_ge data f (0 + 4)
    ([] ++ [rgbToHex (readAt data 0) (readAt data (0 + 1)) (readAt data (0 + 2))])
  rw [h] at this
  simp at this

theorem dominantWorker_answers (data : List Nat) (hne : data ≠ []) :
    ∃ hex, dominantWorker data = some hex := by
  obtain ⟨res, hres, _⟩ :=
    getDominantColor_countColors (convertColorsToHex data) (convertColorsToHex_ne_nil data hne)
  exact ⟨res, by simp only [dominantWorker, hres]⟩

/-- C5, as the claim states it, fails: `calculate` on the empty buffer and on a
buffer of three bytes posts the buffer to both workers, the workers answer the
buffer of three bytes with a colour string, and the average worker answers the
empty buffer with the string `#aN`. -/
theorem invalid_input_rejected_counterexample :
    (calculate Page.init []).average.inbox = [[]] ∧
    (calculate Page.init []).dominant.inbox = [[]] ∧
    (calculate Page.init [1, 2, 3]).average.inbox = [[1, 2, 3]] ∧
    (calculate Page.init [1, 2, 3]).dominant.inbox = [[1, 2, 3]] ∧
    calculateResult
        (run [.calculate [1, 2, 3], .runAverage, .runDominant, .deliverAverage, .deliverDominant])
        0 = some ("#010203", "#010203") ∧
    averageWorker [] = "#aN" := by
  decide

theorem promiseValue_fresh (base : List (Nat × String)) (call : Nat)
    (hfresh : ∀ e ∈ base, e.1 ≠ call) : promiseValue base call = none := by
  induction base with
  | nil => rfl
  | cons e base ih =>
    obtain ⟨c, v⟩ := e
    have hc : ¬ c = call := hfresh (c, v) (by simp)
    simp only [promiseValue, hc, if_false]
    exact ih (fun x hx => hfresh x (by simp [hx]))

theorem promiseValue_append_fresh (base : List (Nat × String)) (call : Nat) (value : String)
    (hfresh : ∀ e ∈ base, e.1 ≠ call) :
    promiseValue (base ++ [(call, value)]) call = some value := by
  induction base with
  | nil => simp [promiseValue]
  | cons e base ih =>
    obtain ⟨c, v⟩ := e
    have hc : ¬ c = call := hfresh (c, v) (by simp)
    simp only [List.cons_append, promiseValue, hc, if_false]
    exact ih (fun x hx => hfresh x (by simp [hx]))

theorem resolvePromise_fresh (base : List (Nat × String)) (call : Nat) (value : String)
    (hfresh : ∀ e ∈ base, e.1 ≠ call) :
    resolvePromise base call value = base ++ [(call, value)] := by
  have hnot : (base.map Prod.fst).contains call = false := by
    rw [Bool.eq_false_iff]
    intro h
    have hmem : call ∈ base.map Prod.fst := by simpa using h
    obtain ⟨e, he, hec⟩ := List.mem_map.mp hmem
    exact hfresh e he hec
  simp only [resolvePromise, hnot, Bool.false_eq_true, if_false]

theorem resolvePromise_mem (resolved : List (Nat × String)) (call : Nat) (value : String)
    (e : Nat × String) (he : e ∈ resolvePromise resolved call value) :
    e ∈ resolved ∨ e.1 = call := by
  unfold resolvePromise at he
  split at he
  · exact Or.inl he
  · rcases List.mem_append.mp he with h | h
    · exact Or.inl h
    · have : e = (call, value) := by simpa using h
      exact Or.inr (by rw [this])

theorem foldl_resolvePromise_mem (listeners : List Nat) (value : String) :
    ∀ (resolved : List (Nat × String)) (e : Nat × String),
      e ∈ listeners.foldl (fun acc call => resolvePromise acc call value) resolved →
      e ∈ resolved ∨ e.1 ∈ listeners := by
  induction listeners with
  | nil => intro resolved e he; exact Or.inl he
  | cons c listeners ih =>
    intro resolved e he
    rw [List.foldl_cons] at he
    rcases ih _ e he with h | h
    · rcases resolvePromise_mem resolved c value e h with h1 | h1
      · exact Or.inl h1
      · exact Or.inr (by simp [h1])
    · exact Or.inr (by simp [h])

theorem deliver_listeners (port : Port) (resolved : List (Nat × String)) :
    ∀ c ∈ (deliver port resolved).1.listeners, c ∈ port.listeners := by
  intro c hc
  unfold deliver at hc
  split at hc
  · exact hc
  · simp at hc

theorem deliver_resolved (port : Port) (resolved : List (Nat × String)) :
    ∀ e ∈ (deliver port resolved).2, e ∈ resolved ∨ e.1 ∈ port.listeners := by
  intro e he
  unfold deliver at he
  split at he
  · exact Or.inl he
  · exact foldl_resolvePromise_mem _ _ _ e he

theorem runAverage_listeners (port : Port) : (runAverage port).listeners = port.listeners := by
  unfold runAverage
  split <;> rfl

theorem runDominant_listeners (port : Port) : (runDominant port).listeners = port.listeners := by
  unfold runDominant
  split
  · rfl
  · split <;> rfl

theorem wellNumbered_init : WellNumbered Page.init := by
  refine ⟨?_, ?_, ?_, ?_⟩ <;> intro c hc <;> simp [Page.init] at hc

theorem wellNumbered_step {page : Page} (h : WellNumbered page) (e : Event) :
    WellNumbered (step page e) := by
  obtain ⟨h1, h2, h3, h4⟩ := h
  cases e with
  | calculate data =>
    refine ⟨?_, ?_, ?_, ?_⟩
    · intro c hc
      have hc' : c ∈ page.average.listeners ++ [page.calls] := hc
      rcases List.mem_append.mp hc' with h | h
      · exact Nat.lt_succ_of_lt (h1 c h)
      · have : c = page.calls := by simpa using h
        rw [this]
        exact Nat.lt_succ_self _
    · intro c hc
      have hc' : c ∈ page.dominant.listeners ++ [page.calls] := hc
      rcases List.mem_append.mp hc' with h | h
      · exact Nat.lt_succ_of_lt (h2 c h)
      · have : c = page.calls := by simpa using h
        rw [this]
        exact Nat.lt_succ_self _
    · intro x hx
      exact Nat.lt_succ_of_lt (h3 x hx)
    · intro x hx
      exact Nat.lt_succ_of_lt (h4 x hx)
  | runAverage =>
    refine ⟨?_, h2, h3, h4⟩
    intro c hc
    have hc' : c ∈ (ColorWorkers.runAverage page.average).listeners := hc
    rw [runAverage_listeners] at hc'
    exact h1 c hc'
  | runDominant =>
    refine ⟨h1, ?_, h3, h4⟩
    intro c hc
    have hc' : c ∈ (ColorWorkers.runDominant page.dominant).listeners := hc
    rw [runDominant_listeners] at hc'
    exact h2 c hc'
  | deliverAverage =>
    refine ⟨?_, h2, ?_, h4⟩
    · intro c hc
      exact h1 c (deliver_listeners page.average page.averageResolved c hc)
    · intro x hx
      rcases deliver_resolved page.average page.averageResolved x hx with h | h
      · exact h3 x h
      · exact h1 _ h
  | deliverDominant =>
    refine ⟨h1, ?_, h3, ?_⟩
    · intro c hc
      exact h2 c (deliver_listeners page.dominant page.dominantResolved c hc)
    · intro x hx
      rcases deliver_resolved page.dominant page.dominantResolved x hx with h | h
      · exact h4 x h
      · exact h2 _ h

/-- Every page that a sequence of events leads to from the initial page is
well numbered. -/
theorem wellNumbered_run (events : List Event) : WellNumbered (run events) := by
  have key : ∀ (evs : List Event) (page : Page), WellNumbered page →
      WellNumbered (evs.foldl ColorWorkers.step page) := by
    intro evs
    induction evs with
    | nil => intro page h; exact h
    | cons e evs ih => intro page h; exact ih _ (wellNumbered_step h e)
  exact key events _ wellNumbered_init

theorem average_stage_step (data : List Nat) (call : Nat) (base : List (Nat × String))
    (hfresh : ∀ e ∈ base, e.1 ≠ call) (page : Page) (e : Event) (he : e.isCalculate = false)
    (stage : Nat)
    (h : (page.average, page.averageResolved) =
      aloneState data (averageWorker data) call base stage) :
    ((step page e).average, (step page e).averageResolved) =
      aloneState data (averageWorker data) call base
        (stageStep .runAverage .deliverAverage stage e) := by
  have hp : page.average = (aloneState data (averageWorker data) call base stage).1 :=
    congrArg Prod.fst h
  have hr : page.averageResolved = (aloneState data (averageWorker data) call base stage).2 :=
    congrArg Prod.snd h
  have hres := resolvePromise_fresh base call (averageWorker data) hfresh
  cases e with
  | calculate d => simp [Event.isCalculate] at he
  | runAverage =>
    rcases stage with _ | _ | n <;>
      simp [aloneState, stageStep, step, runAverage, hp, hr]
  | runDominant =>
    rcases stage with _ | _ | n <;> simp [aloneState, stageStep, step, hp, hr]
  | deliverAverage =>
    rcases stage with _ | _ | n <;>
      simp [aloneState, stageStep, step, deliver, hp, hr, hres]
  | deliverDominant =>
    rcases stage with _ | _ | n <;> simp [aloneState, stageStep, step, hp, hr]

theorem dominant_stage_step (data : List Nat) (hex : String)
    (hhex : dominantWorker data = some hex) (call : Nat) (base : List (Nat × String))
    (hfresh : ∀ e ∈ base, e.1 ≠ call) (page : Page) (e : Event) (he : e.isCalculate = false)
    (stage : Nat)
    (h : (page.dominant, page.dominantResolved) = aloneState data hex call base stage) :
    ((step page e).dominant, (step page e).dominantResolved) =
      aloneState data hex call base (stageStep .runDominant .deliverDominant stage e) := by
  have hp : page.dominant = (aloneState data hex call base stage).1 := congrArg Prod.fst h
  have hr : page.dominantResolved = (aloneState data hex call base stage).2 :=
    congrArg Prod.snd h
  have hres := resolvePromise_fresh base call hex hfresh
  cases e with
  | calculate d => simp [Event.isCalculate] at he
  | runAverage =>
    rcases stage with _ | _ | n <;> simp [aloneState, stageStep, step, hp, hr]
  | runDominant =>
    rcases stage with _ | _ | n <;>
      simp [aloneState, stageStep, step, runDominant, hp, hr, hhex]
  | deliverAverage =>
    rcases stage with _ | _ | n <;> simp [aloneState, stageStep, step, hp, hr]
  | deliverDominant =>
    rcases stage with _ | _ | n <;>
      simp [aloneState, stageStep, step, deliver, hp, hr, hres]

/-- A single call on an idle page: whatever the workers and the dispatch do
next, each worker is at the stage its own events have brought it to. -/
theorem alone_stages (data : List Nat) (hex : String) (hhex : dominantWorker data = some hex)
    (call : Nat) (baseA baseD : List (Nat × String))
    (hfreshA : ∀ e ∈ baseA, e.1 ≠ call) (hfreshD : ∀ e ∈ baseD, e.1 ≠ call)
    (later : List Event) (hlater : ∀ e ∈ later, e.isCalculate = false) :
    ∀ (page : Page) (sa sd : Nat),
      (page.average, page.averageResolved) =
        aloneState data (averageWorker data) call baseA sa →
      (page.dominant, page.dominantResolved) = aloneState data hex call baseD sd →
      ((later.foldl step page).average, (later.foldl step page).averageResolved) =
          aloneState data (averageWorker data) call baseA
            (later.foldl (stageStep .runAverage .deliverAverage) sa) ∧
        ((later.foldl step page).dominant, (later.foldl step page).dominantResolved) =
          aloneState data hex call baseD
            (later.foldl (stageStep .runDominant .deliverDominant) sd) := by
  induction later with
  | nil => intro page sa sd ha hd; exact ⟨ha, hd⟩
  | cons e later ih =>
    intro page sa sd ha hd
    have he := hlater e (by simp)
    rw [List.foldl_cons, List.foldl_cons, List.foldl_cons]
    exact ih (fun x hx => hlater x (by simp [hx])) _ _ _
      (average_stage_step data call baseA hfreshA page e he sa ha)
      (dominant_stage_step data hex hhex call baseD hfreshD page e he sd hd)

theorem stage_two_stays (r d : Event) (later : List Event) (n : Nat) :
    later.foldl (stageStep r d) (n + 2) = n + 2 := by
  induction later with
  | nil => rfl
  | cons e later ih =>
    rw [List.foldl_cons]
    have : stageStep r d (n + 2) e = n + 2 := by simp [stageStep]
    rw [this, ih]

theorem stage_one_reaches_two (r d : Event) (later : List Event) (hd : d ∈ later) :
    later.foldl (stageStep r d) 1 = 2 := by
  induction later with
  | nil => simp at hd
  | cons e later ih =>
    rw [List.foldl_cons]
    by_cases hed : e = d
    · have : stageStep r d 1 e = 0 + 2 := by simp [stageStep, hed]
      rw [this, stage_two_stays]
    · have : stageStep r d 1 e = 1 := by simp [stageStep, hed]
      rw [this]
      rcases List.mem_cons.mp hd with h | h
      · exact absurd h.symm hed
      · exact ih h

theorem stage_zero_reaches_two (r d : Event) (later : List Event)
    (hsub : [r, d].Sublist later) : later.foldl (stageStep r d) 0 = 2 := by
  induction later with
  | nil => simp at hsub
  | cons e later ih =>
    rw [List.foldl_cons]
    by_cases her : e = r
    · have : stageStep r d 0 e = 1 := by simp [stageStep, her]
      rw [this]
      apply stage_one_reaches_two
      cases hsub with
      | cons _ h => exact h.subset (by simp)
      | cons₂ _ h => exact h.subset (by simp)
    · have : stageStep r d 0 e = 0 := by simp [stageStep, her]
      rw [this]
      cases hsub with
      | cons _ h => exact ih h
      | cons₂ _ h => exact absurd rfl her

theorem aloneState_promise (data : List Nat) (answer : String) (call : Nat)
    (base : List (Nat × String)) (hfresh : ∀ e ∈ base, e.1 ≠ call) (stage : Nat) :
    promiseValue (aloneState data answer call base stage).2 call =
      if stage < 2 then none else some answer := by
  rcases stage with _ | _ | n
  · simpa [aloneState] using promiseValue_fresh base call hfresh
  · simpa [aloneState] using promiseValue_fresh base call hfresh
  · simpa [aloneState] using promiseValue_append_fresh base call answer hfresh

/-- C5, amended. Neither `calculate` nor a worker checks the length of the
buffer, and there is no `InvalidInput` error. For every page and every buffer,
of length 0 or of a length not divisible by 4 as well, `calculate` posts the
buffer to each of the two workers and adds one listener on each. A worker that
handles a non-empty buffer, whatever its length, posts a string. And when no
other call is outstanding, a call on a non-empty buffer never resolves with
anything but the pair of the strings of its own buffer, whatever the order of
the worker runs and dispatches that follow, and it does resolve with that pair
once each worker has run and its answer has then been dispatched. -/
theorem every_buffer_is_dispatched (page : Page) (data : List Nat) :
    (calculate page data).average.inbox = page.average.inbox ++ [data] ∧
    (calculate page data).dominant.inbox = page.dominant.inbox ++ [data] ∧
    (calculate page data).average.listeners = page.average.listeners ++ [page.calls] ∧
    (calculate page data).dominant.listeners = page.dominant.listeners ++ [page.calls] ∧
    (data ≠ [] → ∃ hex, dominantWorker data = some hex ∧
      (∀ (port : Port) (rest : List (List Nat)), port.inbox = data :: rest →
        (runAverage port).outbox = port.outbox ++ [averageWorker data] ∧
        (runDominant port).outbox = port.outbox ++ [hex]) ∧
      (page.Idle → WellNumbered page →
        ∀ later : List Event, (∀ e ∈ later, e.isCalculate = false) →
          (calculateResult (later.foldl step (calculate page data)) page.calls = none ∨
            calculateResult (later.foldl step (calculate page data)) page.calls =
              some (averageWorker data, hex)) ∧
          ([Event.runAverage, Event.deliverAverage].Sublist later →
            [Event.runDominant, Event.deliverDominant].Sublist later →
            calculateResult (later.foldl step (calculate page data)) page.calls =
              some (averageWorker data, hex)))) := by
  refine ⟨rfl, rfl, rfl, rfl, ?_⟩
  intro hne
  obtain ⟨hex, hhex⟩ := dominantWorker_answers data hne
  refine ⟨hex, hhex, ?_, ?_⟩
  · intro port rest hin
    constructor
    · simp [runAverage, hin]
    · simp [runDominant, hin, hhex]
  · intro hidle hwell later hlater
    obtain ⟨hia, hid⟩ := hidle
    obtain ⟨_, _, h3, h4⟩ := hwell
    have hfreshA : ∀ e ∈ page.averageResolved, e.1 ≠ page.calls :=
      fun e he => Nat.ne_of_lt (h3 e he)
    have hfreshD : ∀ e ∈ page.dominantResolved, e.1 ≠ page.calls :=
      fun e he => Nat.ne_of_lt (h4 e he)
    have hstartA : ((calculate page data).average, (calculate page data).averageResolved) =
        aloneState data (averageWorker data) page.calls page.averageResolved 0 := by
      simp [calculate, workerCalculator, aloneState, hia]
    have hstartD : ((calculate page data).dominant, (calculate page data).dominantResolved) =
        aloneState data hex page.calls page.dominantResolved 0 := by
      simp [calculate, workerCalculator, aloneState, hid]
    obtain ⟨hA, hD⟩ := alone_stages data hex hhex page.calls page.averageResolved
      page.dominantResolved hfreshA hfreshD later hlater _ 0 0 hstartA hstartD
    have hpa := aloneState_promise data (averageWorker data) page.calls page.averageResolved
      hfreshA (later.foldl (stageStep .runAverage .deliverAverage) 0)
    have hpd := aloneState_promise data hex page.calls page.dominantResolved
      hfreshD (later.foldl (stageStep .runDominant .deliverDominant) 0)
    rw [← hA] at hpa
    rw [← hD] at hpd
    simp only at hpa hpd
    constructor
    · unfold calculateResult
      rw [hpa, hpd]
      by_cases h1 : later.foldl (stageStep .runAverage .deliverAverage) 0 < 2
      · simp [h1]
      · by_cases h2 : later.foldl (stageStep .runDominant .deliverDominant) 0 < 2
        · simp [h1, h2]
        · simp [h1, h2]
    · intro hsa hsd
      have e1 := stage_zero_reaches_two .runAverage .deliverAverage later hsa
      have e2 := stage_zero_reaches_two .runDominant .deliverDominant later hsd
      unfold calculateResult
      rw [hpa, hpd, e1, e2]
      simp

theorem every_buffer_is_dispatched_witness :
    ([1, 2, 3] ≠ [] ∧ [1, 2, 3].length % 4 ≠ 0 ∧
      (run [.calculate [9, 9, 9, 9], .runAverage, .runDominant, .deliverAverage,
        .deliverDominant]).Idle ∧
      (run [.calculate [9, 9, 9, 9], .runAverage, .runDominant, .deliverAverage,
        .deliverDominant]).calls = 1 ∧
      [Event.runAverage, Event.deliverAverage].Sublist
        [.runDominant, .runAverage, .deliverDominant, .deliverAverage] ∧
      [Event.runDominant, Event.deliverDominant].Sublist
        [.runDominant, .runAverage, .deliverDominant, .deliverAverage]) ∧
    ∃ hex, dominantWorker [1, 2, 3] = some hex ∧
      calculateResult
          ([Event.runDominant, .runAverage, .deliverDominant, .deliverAverage].foldl step
            (calculate
              (run [.calculate [9, 9, 9, 9], .runAverage, .runDominant, .deliverAverage,
                .deliverDominant])
              [1, 2, 3]))
          (run [.calculate [9, 9, 9, 9], .runAverage, .runDominant, .deliverAverage,
            .deliverDominant]).calls =
        some (averageWorker [1, 2, 3], hex) :=
  ⟨⟨by decide, by decide, ⟨by decide, by decide⟩, by decide, by decide, by decide⟩,
    match (every_buffer_is_dispatched
      (run [.calculate [9, 9, 9, 9], .runAverage, .runDominant, .deliverAverage,
        .deliverDominant])
      [1, 2, 3]).2.2.2.2 (by decide) with
    | ⟨hex, h1, _, h3⟩ =>
      ⟨hex, h1,
        (h3 ⟨by decide, by decide⟩ (wellNumbered_run _)
          [.runDominant, .runAverage, .deliverDominant, .deliverAverage]
          (by decide)).2 (by decide) (by decide)⟩⟩

theorem Overlapping.start (d1 d2 : List Nat) (first : String) (port : Port)
    (hport : port = { inbox := [], outbox := [], listeners := [] }) :
    Overlapping d1 d2 first (workerCalculator (workerCalculator port 0 d1) 1 d2) [] := by
  subst hport
  exact Or.inl ⟨rfl, rfl, Or.inl ⟨rfl, rfl⟩⟩

theorem Overlapping.runAverage {d1 d2 : List Nat} {port : Port} {resolved : List (Nat × String)}
    (h : Overlapping d1 d2 (averageWorker d1) port resolved) :
    Overlapping d1 d2 (averageWorker d1) (runAverage port) resolved := by
  rcases h with ⟨hr, hl, hio | ⟨rest, ho⟩⟩ | ⟨hr, hl⟩
  · refine Or.inl ⟨hr, ?_, Or.inr ⟨[], ?_⟩⟩ <;> simp [ColorWorkers.runAverage, hio.1, hio.2, hl]
  · refine Or.inl ⟨hr, ?_, Or.inr ?_⟩
    · unfold ColorWorkers.runAverage
      split <;> simp [hl]
    · unfold ColorWorkers.runAverage
      split
      · exact ⟨rest, ho⟩
      · rename_i data _ _
        exact ⟨rest ++ [averageWorker data], by simp [ho]⟩
  · refine Or.inr ⟨hr, ?_⟩
    unfold ColorWorkers.runAverage
    split <;> simp [hl]

theorem Overlapping.runDominant {d1 d2 : List Nat} {first : String} {port : Port}
    {resolved : List (Nat × String)} (hfirst : dominantWorker d1 = some first)
    (h : Overlapping d1 d2 first port resolved) :
    Overlapping d1 d2 first (runDominant port) resolved := by
  rcases h with ⟨hr, hl, hio | ⟨rest, ho⟩⟩ | ⟨hr, hl⟩
  · refine Or.inl ⟨hr, ?_, Or.inr ⟨[], ?_⟩⟩ <;>
      simp [ColorWorkers.runDominant, hio.1, hio.2, hl, hfirst]
  · refine Or.inl ⟨hr, ?_, Or.inr ?_⟩
    · unfold ColorWorkers.runDominant
      split
      · exact hl
      · split <;> simp [hl]
    · unfold ColorWorkers.runDominant
      split
      · exact ⟨rest, ho⟩
      · split
        · rename_i hex _
          exact ⟨rest ++ [hex], by simp [ho]⟩
        · exact ⟨rest, by simp [ho]⟩
  · refine Or.inr ⟨hr, ?_⟩
    unfold ColorWorkers.runDominant
    split
    · exact hl
    · split <;> simp [hl]

theorem Overlapping.deliver {d1 d2 : List Nat} {first : String} {port : Port}
    {resolved : List (Nat × String)} (h : Overlapping d1 d2 first port resolved) :
    Overlapping d1 d2 first (deliver port resolved).1 (deliver port resolved).2 := by
  rcases h with ⟨hr, hl, hio | ⟨rest, ho⟩⟩ | ⟨hr, hl⟩
  · have : ColorWorkers.deliver port resolved = (port, resolved) := by
      simp [ColorWorkers.deliver, hio.2]
    rw [this]
    exact Or.inl ⟨hr, hl, Or.inl hio⟩
  · refine Or.inr ⟨?_, ?_⟩
    · simp [ColorWorkers.deliver, ho, hl, hr, resolvePromise]
    · simp [ColorWorkers.deliver, ho]
  · refine Or.inr ⟨?_, ?_⟩
    · unfold ColorWorkers.deliver
      split
      · exact hr
      · simp [hl, hr]
    · unfold ColorWorkers.deliver
      split
      · exact hl
      · rfl

/-- Whatever the workers and the dispatch do after two overlapping calls, the
promises of the second call are never resolved with anything but the answers
to the first buffer. -/
theorem overlap_resolves_with_first (d1 d2 : List Nat) (first : String)
    (hfirst : dominantWorker d1 = some first) (events : List Event)
    (hev : ∀ e ∈ events, e.isCalculate = false) :
    Overlapping d1 d2 (averageWorker d1)
        (events.foldl step (calculate (calculate Page.init d1) d2)).average
        (events.foldl step (calculate (calculate Page.init d1) d2)).averageResolved ∧
    Overlapping d1 d2 first
        (events.foldl step (calculate (calculate Page.init d1) d2)).dominant
        (events.foldl step (calculate (calculate Page.init d1) d2)).dominantResolved := by
  have key : ∀ (evs : List Event) (page : Page), (∀ e ∈ evs, e.isCalculate = false) →
      Overlapping d1 d2 (averageWorker d1) page.average page.averageResolved →
      Overlapping d1 d2 first page.dominant page.dominantResolved →
      Overlapping d1 d2 (averageWorker d1) (evs.foldl step page).average
          (evs.foldl step page).averageResolved ∧
        Overlapping d1 d2 first (evs.foldl step page).dominant
          (evs.foldl step page).dominantResolved := by
    intro evs
    induction evs with
    | nil => intro page _ ha hd; exact ⟨ha, hd⟩
    | cons e evs ih =>
      intro page hevs ha hd
      have he := hevs e (by simp)
      have hrest : ∀ e ∈ evs, e.isCalculate = false := fun x hx => hevs x (by simp [hx])
      rw [List.foldl_cons]
      cases e with
      | calculate data => simp [Event.isCalculate] at he
      | runAverage => exact ih _ hrest ha.runAverage hd
      | runDominant => exact ih _ hrest ha (hd.runDominant hfirst)
      | deliverAverage => exact ih _ hrest ha.deliver hd
      | deliverDominant => exact ih _ hrest ha hd.deliver
  exact key events _ hev (Overlapping.start d1 d2 _ _ rfl) (Overlapping.start d1 d2 _ _ rfl)

/-- After two overlapping calls, the second call resolves, if it does, with the
colours of the first buffer. -/
theorem overlap_result_is_first (d1 d2 : List Nat) (first : String)
    (hfirst : dominantWorker d1 = some first) (events : List Event)
    (hev : ∀ e ∈ events, e.isCalculate = false) (res : String × String)
    (hres : calculateResult (run (.calculate d1 :: .calculate d2 :: events)) 1 = some res) :
    res = (averageWorker d1, first) := by
  obtain ⟨ha, hd⟩ := overlap_resolves_with_first d1 d2 first hfirst events hev
  have hrun : run (.calculate d1 :: .calculate d2 :: events) =
      events.foldl step (calculate (calculate Page.init d1) d2) := rfl
  rw [hrun] at hres
  unfold calculateResult at hres
  rcases ha with ⟨ha1, _⟩ | ⟨ha1, _⟩
  · simp [ha1, promiseValue] at hres
  · rcases hd with ⟨hd1, _⟩ | ⟨hd1, _⟩
    · simp [ha1, hd1, promiseValue] at hres
    · simp [ha1, hd1, promiseValue] at hres
      exact hres.symm

/-- C6 on the code: two calls of `calculate`, the second made before the
answers to the first are dispatched. The first answer of each worker calls both
listeners, so the promise of the second call resolves with the colours of the
first buffer (red), not with those of its own buffer (blue); the answers to the
second buffer find no listener. -/
theorem overlapping_calls_second_gets_first_answer :
    averageWorker [255, 0, 0, 255] = "#ff0000" ∧
    dominantWorker [255, 0, 0, 255] = some "#ff0000" ∧
    averageWorker [0, 0, 255, 255] = "#0000ff" ∧
    dominantWorker [0, 0, 255, 255] = some "#0000ff" ∧
    calculateResult
        (run [.calculate [255, 0, 0, 255], .calculate [0, 0, 255, 255],
          .runAverage, .runDominant, .deliverAverage, .deliverDominant,
          .runAverage, .runDominant, .deliverAverage, .deliverDominant])
        0 = some ("#ff0000", "#ff0000") ∧
    calculateResult
        (run [.calculate [255, 0, 0, 255], .calculate [0, 0, 255, 255],
          .runAverage, .runDominant, .deliverAverage, .deliverDominant,
          .runAverage, .runDominant, .deliverAverage, .deliverDominant])
        1 = some ("#ff0000", "#ff0000") ∧
    calculateResult
        (run [.calculate [255, 0, 0, 255], .calculate [0, 0, 255, 255],
          .runAverage, .runAverage, .runDominant, .runDominant,
          .deliverAverage, .deliverDominant])
        1 = some ("#ff0000", "#ff0000") := by
  decide

end ColorWorkers
